import Mathlib

/-!
Verification of the wind-data pipeline and multiplayer race runtime of the
rewind sailing-game server.

Each Rust function under scrutiny is embedded as an executable Lean
definition.  Byte buffers are modelled as `List Nat` (the parser only ever
compares bytes against literal values, so no 256-bound is needed for the
statements below), Rust strings as `List Char`, machine floats as `ℚ`
where the claims concern exact values, and random inputs (jitter draws)
are passed in explicitly.
-/

namespace Rewind

/-! ## GRIB2 stream parser — src/server/src/grib_stream.rs

`Grib2StreamParser` keeps one mutable field, `buffer`; we thread it
explicitly.  `try_extract_message` both returns an optional message and
mutates the buffer, so its embedding returns the pair
`(extracted message?, new buffer)`. -/

/-- The four magic bytes `b"GRIB"`. -/
def gribMagic : List Nat := [71, 82, 73, 66]

/-- The four end-marker bytes `b"7777"`. -/
def gribEnd : List Nat := [55, 55, 55, 55]

/-- `self.buffer.windows(4).position(|w| w == b"GRIB")`: index of the first
4-byte window equal to `GRIB`, `none` if there is none (also when the
buffer is shorter than 4 bytes). -/
def findGrib : List Nat → Option Nat
  | b0 :: b1 :: b2 :: b3 :: rest =>
      if b0 = 71 ∧ b1 = 82 ∧ b2 = 73 ∧ b3 = 66 then some 0
      else (findGrib (b1 :: b2 :: b3 :: rest)).map (· + 1)
  | _ => none

/-- `u64::from_be_bytes` on an 8-byte slice: big-endian accumulation. -/
def be64 (l : List Nat) : Nat := l.foldl (fun a b => a * 256 + b) 0

/-- `Grib2StreamParser::try_extract_message`.  Returns the extracted
message (if any) together with the buffer as the call leaves it:
garbage before the first `GRIB` marker is dropped; a declared length
over 1 GB drops the 4 marker bytes; a frame whose last four bytes are
not `7777` is split off and discarded. -/
def try_extract_message (buffer : List Nat) : Option (List Nat) × List Nat :=
  match findGrib buffer with
  | none => (none, buffer)
  | some pos =>
    let buf := buffer.drop pos
    if buf.length < 16 then (none, buf)
    else
      let msgLen := be64 ((buf.drop 8).take 8)
      if msgLen > 1000000000 then (none, buf.drop 4)
      else if buf.length < msgLen then (none, buf)
      else
        let msg := buf.take msgLen
        let rest := buf.drop msgLen
        if msg.length < 4 ∨ msg.drop (msg.length - 4) ≠ gribEnd then (none, rest)
        else (some msg, rest)

/-- The `while let Some(msg) = self.try_extract_message()` loop of `feed`,
with explicit fuel.  `feed` always supplies enough fuel (each extracted
message removes at least 4 bytes from the buffer), as
`extract_loop_fuel` proves below. -/
def extract_loop : Nat → List Nat → List (List Nat) × List Nat
  | 0, buffer => ([], buffer)
  | fuel + 1, buffer =>
    match try_extract_message buffer with
    | (some msg, rest) =>
        let r := extract_loop fuel rest
        (msg :: r.1, r.2)
    | (none, rest) => ([], rest)

/-- `Grib2StreamParser::feed`: append the chunk to the buffer, then
extract complete messages until `try_extract_message` returns `None`. -/
def feed (buffer data : List Nat) : List (List Nat) × List Nat :=
  extract_loop ((buffer ++ data).length + 1) (buffer ++ data)

/-- Feed a sequence of chunks to one parser, collecting every emitted
message in order, starting from the given buffer. -/
def feed_all : List Nat → List (List Nat) → List (List Nat) × List Nat
  | buffer, [] => ([], buffer)
  | buffer, c :: cs =>
    let r := feed buffer c
    let r2 := feed_all r.2 cs
    (r.1 ++ r2.1, r2.2)

/-- A well-formed GRIB2 message per the spec: starts with `GRIB`, carries
its own total length big-endian in bytes 8..16, ends with `7777`, and
(so that the parser's 1 GB sanity check never fires on it) is at most
10^9 bytes long.  The bound `20 ≤ length` is forced by the other
clauses: a shorter message would need its `7777` trailer to overlap the
length field. -/
def wellFormedMessage (m : List Nat) : Prop :=
  20 ≤ m.length ∧ m.length ≤ 1000000000 ∧ m.take 4 = gribMagic ∧
    be64 ((m.drop 8).take 8) = m.length ∧ m.drop (m.length - 4) = gribEnd

instance (m : List Nat) : Decidable (wellFormedMessage m) := by
  unfold wellFormedMessage; infer_instance

/-- Garbage that contains no `GRIB` marker, phrased through the parser's
own search. -/
def gribFree (l : List Nat) : Prop := findGrib l = none

instance (l : List Nat) : Decidable (gribFree l) := by
  unfold gribFree; infer_instance

/-! ### Characterisation of the marker search -/

/-- A `GRIB` marker sits at index `i` of `l`. -/
def gribAt (l : List Nat) (i : Nat) : Prop :=
  l.get? i = some 71 ∧ l.get? (i + 1) = some 82 ∧
    l.get? (i + 2) = some 73 ∧ l.get? (i + 3) = some 66

theorem not_gribAt_of_short {l : List Nat} (h : l.length < 4) (i : Nat) :
    ¬ gribAt l i := by
  intro hg
  have := (List.get?_eq_some.mp hg.2.2.2).1
  omega

theorem findGrib_none_iff (l : List Nat) :
    findGrib l = none ↔ ∀ i, ¬ gribAt l i := by
  induction l with
  | nil =>
    refine ⟨fun _ i => not_gribAt_of_short (by simp) i, fun _ => rfl⟩
  | cons a t ih =>
    rcases t with _ | ⟨b, t⟩
    · exact ⟨fun _ i => not_gribAt_of_short (by simp) i, fun _ => rfl⟩
    rcases t with _ | ⟨c, t⟩
    · exact ⟨fun _ i => not_gribAt_of_short (by simp) i, fun _ => rfl⟩
    rcases t with _ | ⟨d, t⟩
    · exact ⟨fun _ i => not_gribAt_of_short (by simp) i, fun _ => rfl⟩
    by_cases hm : a = 71 ∧ b = 82 ∧ c = 73 ∧ d = 66
    · simp only [findGrib, if_pos hm]
      constructor
      · intro h; cases h
      · intro h
        exact absurd ⟨by simp [hm.1], by simp [hm.2.1], by simp [hm.2.2.1],
          by simp [hm.2.2.2]⟩ (h 0)
    · simp only [findGrib, if_neg hm, Option.map_eq_none']
      rw [ih]
      constructor
      · intro h i
        cases i with
        | zero =>
          intro hg
          exact hm ⟨by simpa using hg.1, by simpa using hg.2.1,
            by simpa using hg.2.2.1, by simpa using hg.2.2.2⟩
        | succ i => exact h i
      · intro h i
        exact h (i + 1)

theorem findGrib_some_of :
    ∀ (l : List Nat) (p : Nat), gribAt l p → (∀ j, j < p → ¬ gribAt l j) →
      findGrib l = some p := by
  intro l
  induction l with
  | nil => exact fun p hp _ => absurd hp (not_gribAt_of_short (by simp) p)
  | cons a t ih =>
    intro p hp hmin
    have hlen := (List.get?_eq_some.mp hp.2.2.2).1
    rcases t with _ | ⟨b, t⟩
    · simp only [List.length_cons, List.length_nil] at hlen; omega
    rcases t with _ | ⟨c, t⟩
    · simp only [List.length_cons, List.length_nil] at hlen; omega
    rcases t with _ | ⟨d, t⟩
    · simp only [List.length_cons, List.length_nil] at hlen; omega
    cases p with
    | zero =>
      have hm : a = 71 ∧ b = 82 ∧ c = 73 ∧ d = 66 :=
        ⟨by simpa using hp.1, by simpa using hp.2.1,
          by simpa using hp.2.2.1, by simpa using hp.2.2.2⟩
      simp [findGrib, hm]
    | succ p =>
      have hnot : ¬ (a = 71 ∧ b = 82 ∧ c = 73 ∧ d = 66) := by
        intro hm
        exact hmin 0 (Nat.succ_pos p) ⟨by simp [hm.1], by simp [hm.2.1],
          by simp [hm.2.2.1], by simp [hm.2.2.2]⟩
      have htail : findGrib (b :: c :: d :: t) = some p :=
        ih p hp (fun j hj => hmin (j + 1) (by omega))
      simp [findGrib, hnot, htail]

theorem get?_take_eq_some {l : List Nat} {n k a : Nat}
    (h : (l.take n).get? k = some a) : l.get? k = some a := by
  have hk : k < n := by
    have := (List.get?_eq_some.mp h).1
    have := l.length_take n  -- length (take n l) = min n length
    omega
  rwa [List.get?_take hk] at h

theorem gribFree_take {l : List Nat} (h : gribFree l) (n : Nat) :
    gribFree (l.take n) := by
  rw [gribFree, findGrib_none_iff]
  intro i hg
  exact (findGrib_none_iff l).mp h i
    ⟨get?_take_eq_some hg.1, get?_take_eq_some hg.2.1,
      get?_take_eq_some hg.2.2.1, get?_take_eq_some hg.2.2.2⟩

/-- The first three bytes of a message starting with `GRIB`. -/
theorem magic_get? {m : List Nat} (hm : m.take 4 = gribMagic) :
    m.get? 0 = some 71 ∧ m.get? 1 = some 82 ∧ m.get? 2 = some 73 ∧
      m.get? 3 = some 66 := by
  have h0 := congrArg (fun l => List.get? l 0) hm
  have h1 := congrArg (fun l => List.get? l 1) hm
  have h2 := congrArg (fun l => List.get? l 2) hm
  have h3 := congrArg (fun l => List.get? l 3) hm
  simp only [List.get?_take (by omega : (0:Nat) < 4)] at h0
  simp only [List.get?_take (by omega : (1:Nat) < 4)] at h1
  simp only [List.get?_take (by omega : (2:Nat) < 4)] at h2
  simp only [List.get?_take (by omega : (3:Nat) < 4)] at h3
  exact ⟨h0, h1, h2, h3⟩

/-- No marker in GRIB-free garbage followed by fewer than 4 bytes of a
message that starts with `GRIB`. -/
theorem findGrib_garbage_partial {g0 m : List Nat} (hg : gribFree g0)
    (hm : m.take 4 = gribMagic) {c : Nat} (hc : c < 4) :
    findGrib (g0 ++ m.take c) = none := by
  rw [findGrib_none_iff]
  intro i hAt
  have hfree := (findGrib_none_iff g0).mp hg
  by_cases hi : i + 3 < g0.length
  · exact hfree i
      ⟨by rw [← List.get?_append (by omega)]; exact hAt.1,
       by rw [← List.get?_append (by omega)]; exact hAt.2.1,
       by rw [← List.get?_append (by omega)]; exact hAt.2.2.1,
       by rw [← List.get?_append (by omega)]; exact hAt.2.2.2⟩
  · have h4 := hAt.2.2.2
    rw [List.get?_append_right (by omega)] at h4
    have hidx : i + 3 - g0.length < c := by
      have := (List.get?_eq_some.mp h4).1
      have := (m.take c).length_take c
      have h2 := m.length_take c
      omega
    have h4' : m.get? (i + 3 - g0.length) = some 66 := get?_take_eq_some h4
    have hmg := magic_get? hm
    have hc3 : i + 3 - g0.length = 0 ∨ i + 3 - g0.length = 1 ∨
        i + 3 - g0.length = 2 := by omega
    rcases hc3 with h | h | h <;> rw [h] at h4'
    · exact absurd (hmg.1.symm.trans h4') (by decide)
    · exact absurd (hmg.2.1.symm.trans h4') (by decide)
    · exact absurd (hmg.2.2.1.symm.trans h4') (by decide)

/-- The marker is found exactly at the end of the garbage when at least 4
message bytes follow. -/
theorem findGrib_garbage_at {g0 t : List Nat} (hg : gribFree g0)
    (h0 : gribAt t 0)
    (hno : ∀ idx, idx ≤ 2 → t.get? idx ≠ some 66) :
    findGrib (g0 ++ t) = some g0.length := by
  apply findGrib_some_of
  · refine ⟨?_, ?_, ?_, ?_⟩ <;>
      rw [List.get?_append_right (by omega)] <;>
      simp only [Nat.add_sub_cancel_left, Nat.sub_self]
    · exact h0.1
    · exact h0.2.1
    · exact h0.2.2.1
    · exact h0.2.2.2
  · intro j hj hAt
    have hfree := (findGrib_none_iff g0).mp hg
    by_cases hi : j + 3 < g0.length
    · exact hfree j
        ⟨by rw [← List.get?_append (by omega)]; exact hAt.1,
         by rw [← List.get?_append (by omega)]; exact hAt.2.1,
         by rw [← List.get?_append (by omega)]; exact hAt.2.2.1,
         by rw [← List.get?_append (by omega)]; exact hAt.2.2.2⟩
    · have h4 := hAt.2.2.2
      rw [List.get?_append_right (by omega)] at h4
      exact hno (j + 3 - g0.length) (by omega) h4

/-! ### Evaluation lemmas for `try_extract_message` -/

theorem try_extract_of_no_marker {buf : List Nat} (h : findGrib buf = none) :
    try_extract_message buf = (none, buf) := by
  unfold try_extract_message
  rw [h]

theorem try_extract_of_short {buf : List Nat} {pos : Nat}
    (h : findGrib buf = some pos) (hs : (buf.drop pos).length < 16) :
    try_extract_message buf = (none, buf.drop pos) := by
  unfold try_extract_message
  rw [h]
  simp only [if_pos hs]

theorem try_extract_of_incomplete {buf : List Nat} {pos L : Nat}
    (h : findGrib buf = some pos) (hs : ¬ (buf.drop pos).length < 16)
    (hL : be64 (((buf.drop pos).drop 8).take 8) = L)
    (hbig : ¬ L > 1000000000) (hlt : (buf.drop pos).length < L) :
    try_extract_message buf = (none, buf.drop pos) := by
  unfold try_extract_message
  rw [h]
  simp only [if_neg hs, hL, if_neg hbig, if_pos hlt]

theorem try_extract_of_message {buf m r : List Nat} {pos : Nat}
    (h : findGrib buf = some pos) (hdrop : buf.drop pos = m ++ r)
    (hwf : wellFormedMessage m) :
    try_extract_message buf = (some m, r) := by
  obtain ⟨h20, hle, _, hbe, hend⟩ := hwf
  unfold try_extract_message
  rw [h]
  dsimp only
  rw [hdrop]
  have hlen : (m ++ r).length = m.length + r.length := List.length_append m r
  have hs : ¬ (m ++ r).length < 16 := by omega
  have hbe2 : be64 (((m ++ r).drop 8).take 8) = m.length := by
    rw [List.drop_append_of_le_length (by omega),
      List.take_append_of_le_length (by simp; omega)]
    exact hbe
  simp only [if_neg hs, hbe2]
  have hbig : ¬ m.length > 1000000000 := by omega
  have hge : ¬ (m ++ r).length < m.length := by omega
  simp only [if_neg hbig, if_neg hge, List.take_left, List.drop_left]
  have hcheck : ¬ (m.length < 4 ∨ m.drop (m.length - 4) ≠ gribEnd) := by
    push_neg
    exact ⟨by omega, hend⟩
  simp only [if_neg hcheck]

/-- A successful extraction removes at least the four end-marker bytes. -/
theorem try_extract_some_length {buffer msg rest : List Nat}
    (h : try_extract_message buffer = (some msg, rest)) :
    rest.length + 4 ≤ buffer.length := by
  unfold try_extract_message at h
  cases hf : findGrib buffer with
  | none => rw [hf] at h; cases h
  | some pos =>
    rw [hf] at h
    simp only at h
    split_ifs at h with h1 h2 h3 h4
    · cases h
    · cases h
    · cases h
    · cases h
    · injection h with hmsg hrest
      injection hmsg with hmsg
      subst hmsg
      subst hrest
      push_neg at h4
      have h4' := h4.1
      rw [List.length_take] at h4'
      rw [List.length_drop, List.length_drop]
      have hdl : (buffer.drop pos).length = buffer.length - pos :=
        List.length_drop ..
      omega

theorem extract_loop_fuel :
    ∀ (f1 f2 : Nat) (buffer : List Nat), buffer.length < f1 →
      buffer.length < f2 → extract_loop f1 buffer = extract_loop f2 buffer := by
  intro f1
  induction f1 with
  | zero => intro f2 buffer h1 _; omega
  | succ f1 ih =>
    intro f2 buffer h1 h2
    cases f2 with
    | zero => omega
    | succ f2 =>
      cases hx : try_extract_message buffer with
      | mk o rest =>
        cases o with
        | none => simp only [extract_loop, hx]
        | some msg =>
          have hs := try_extract_some_length hx
          simp only [extract_loop, hx]
          rw [ih f2 rest (by omega) (by omega)]

/-! ### Framing of a garbage-interleaved stream -/

/-- `streamOf g0 [(m1,g1), (m2,g2), …]` is `g0 ++ m1 ++ g1 ++ m2 ++ g2 ++ …`:
messages interleaved with garbage, with garbage also allowed before the
first message and after the last one. -/
def streamOf : List Nat → List (List Nat × List Nat) → List Nat
  | g0, [] => g0
  | g0, (m, g) :: ps => g0 ++ (m ++ streamOf g ps)

/-- Every message of the stream is well formed and every garbage segment
contains no `GRIB` marker. -/
def okPairs (ps : List (List Nat × List Nat)) : Prop :=
  ∀ p ∈ ps, wellFormedMessage p.1 ∧ gribFree p.2

instance (ps : List (List Nat × List Nat)) : Decidable (okPairs ps) := by
  unfold okPairs; infer_instance

/-- The buffer does not yet hold the whole of the next message. -/
def incompleteFor (buf g0 : List Nat) (ps : List (List Nat × List Nat)) :
    Prop :=
  ∀ m g tl, ps = (m, g) :: tl → buf.length < g0.length + m.length

/-- One run of the extraction loop on a buffer that is a prefix of a
garbage-interleaved stream emits exactly the messages it fully holds, in
order, and leaves a buffer that is again such a prefix. -/
theorem extract_loop_spec :
    ∀ (fuel : Nat) (buf g0 rest : List Nat)
      (ps : List (List Nat × List Nat)),
      buf.length < fuel → gribFree g0 → okPairs ps →
      buf ++ rest = streamOf g0 ps →
      ∃ k g0x, gribFree g0x ∧
        (extract_loop fuel buf).1 = (ps.take k).map Prod.fst ∧
        (extract_loop fuel buf).2 ++ rest = streamOf g0x (ps.drop k) ∧
        incompleteFor (extract_loop fuel buf).2 g0x (ps.drop k) := by
  intro fuel
  induction fuel with
  | zero => intro buf _ _ _ h _ _ _; omega
  | succ f ih =>
    intro buf g0 rest ps hfuel hg0 hok heq
    cases ps with
    | nil =>
      have hbuf : buf = g0.take buf.length := by
        have h1 := congrArg (List.take buf.length) heq
        rwa [List.take_left] at h1
      have hfree : gribFree buf := by
        rw [hbuf]; exact gribFree_take hg0 _
      have hte := try_extract_of_no_marker hfree
      simp only [extract_loop, hte]
      exact ⟨0, g0, hg0, rfl, heq, fun m g tl h => by cases h⟩
    | cons hd tl =>
      obtain ⟨m, g⟩ := hd
      have hokm := hok (m, g) (List.mem_cons_self ..)
      have hok' : okPairs tl := fun p hp => hok p (List.mem_cons_of_mem _ hp)
      obtain ⟨⟨h20, hle9, hmagic, hbe, hend⟩, hgg⟩ := hokm
      dsimp only at h20 hle9 hmagic hbe hend hgg
      simp only [streamOf] at heq
      by_cases hc1 : buf.length ≤ g0.length
      · -- not even the whole leading garbage is buffered
        have hbuf : buf = g0.take buf.length := by
          have h1 := congrArg (List.take buf.length) heq
          rw [List.take_left, List.take_append_of_le_length hc1] at h1
          exact h1
        have hfree : gribFree buf := by
          rw [hbuf]; exact gribFree_take hg0 _
        have hte := try_extract_of_no_marker hfree
        simp only [extract_loop, hte]
        refine ⟨0, g0, hg0, rfl, heq, ?_⟩
        intro m' g' tl' hps
        injection hps with h1 _
        injection h1 with hm' _
        subst hm'
        omega
      · push_neg at hc1
        by_cases hc2 : buf.length < g0.length + m.length
        · -- the message is only partially buffered
          have hc : buf.length - g0.length ≤ m.length := by omega
          have hbuf : buf = g0 ++ m.take (buf.length - g0.length) := by
            have h1 := congrArg (List.take buf.length) heq
            rw [List.take_left] at h1
            have h2 : buf.length = g0.length + (buf.length - g0.length) := by
              omega
            rw [h2, List.take_append, List.take_append_of_le_length hc] at h1
            exact h1
          set c := buf.length - g0.length with hcdef
          have hlenc : (m.take c).length = c := by
            rw [List.length_take]; omega
          have htail : m.take c ++ rest = m ++ streamOf g tl := by
            have h3 : g0 ++ (m.take c ++ rest) = g0 ++ (m ++ streamOf g tl) := by
              rw [← List.append_assoc, ← hbuf]; exact heq
            exact List.append_cancel_left h3
          by_cases hc4 : c < 4
          · have hfree : gribFree buf := by
              rw [hbuf, gribFree]
              exact findGrib_garbage_partial hg0 hmagic hc4
            have hte := try_extract_of_no_marker hfree
            simp only [extract_loop, hte]
            refine ⟨0, g0, hg0, rfl, ?_, ?_⟩
            · simpa only [streamOf] using heq
            · intro m' g' tl' hps
              injection hps with h1 _
              injection h1 with hm' _
              subst hm'
              omega
          · push_neg at hc4
            have hmg := magic_get? hmagic
            have h0 : gribAt (m.take c) 0 := by
              refine ⟨?_, ?_, ?_, ?_⟩ <;> rw [List.get?_take (by omega)]
              exacts [hmg.1, hmg.2.1, hmg.2.2.1, hmg.2.2.2]
            have hno : ∀ idx, idx ≤ 2 → (m.take c).get? idx ≠ some 66 := by
              intro idx hidx hsome
              have h66 := get?_take_eq_some hsome
              interval_cases idx
              · exact absurd (hmg.1.symm.trans h66) (by decide)
              · exact absurd (hmg.2.1.symm.trans h66) (by decide)
              · exact absurd (hmg.2.2.1.symm.trans h66) (by decide)
            have hfind : findGrib buf = some g0.length := by
              rw [hbuf]; exact findGrib_garbage_at hg0 h0 hno
            have hdrop : buf.drop g0.length = m.take c := by
              rw [hbuf, List.drop_left]
            have hte : try_extract_message buf = (none, m.take c) := by
              by_cases hc16 : c < 16
              · have h1 := try_extract_of_short hfind
                  (by rw [hdrop, hlenc]; exact hc16)
                rwa [hdrop] at h1
              · push_neg at hc16
                have hslice : ((m.take c).drop 8).take 8 = (m.drop 8).take 8 := by
                  rw [List.drop_take, List.take_take]
                  congr 1
                  omega
                have hA : ¬ (buf.drop g0.length).length < 16 := by
                  rw [hdrop, hlenc]; omega
                have hB : be64 (((buf.drop g0.length).drop 8).take 8) =
                    m.length := by
                  rw [hdrop, hslice]; exact hbe
                have hC : ¬ m.length > 1000000000 := by omega
                have hD : (buf.drop g0.length).length < m.length := by
                  rw [hdrop, hlenc]; omega
                have h1 := try_extract_of_incomplete hfind hA hB hC hD
                rwa [hdrop] at h1
            simp only [extract_loop, hte]
            refine ⟨0, [], rfl, rfl, ?_, ?_⟩
            · simpa only [streamOf, List.nil_append] using htail
            · intro m' g' tl' hps
              injection hps with h1 _
              injection h1 with hm' _
              subst hm'
              simp only [List.length_nil, Nat.zero_add]
              omega
        · -- the whole message is buffered: it is extracted and we recurse
          push_neg at hc2
          have hbuf : buf =
              g0 ++ (m ++ (streamOf g tl).take (buf.length - g0.length - m.length)) := by
            have h1 := congrArg (List.take buf.length) heq
            rw [List.take_left] at h1
            have h2 : buf.length =
                g0.length + (m.length + (buf.length - g0.length - m.length)) := by
              omega
            rw [h2, List.take_append, List.take_append] at h1
            exact h1
          set r := (streamOf g tl).take (buf.length - g0.length - m.length)
            with hrdef
          have htail : r ++ rest = streamOf g tl := by
            have h3 : (g0 ++ m) ++ (r ++ rest) = (g0 ++ m) ++ streamOf g tl := by
              calc (g0 ++ m) ++ (r ++ rest)
                  = (g0 ++ (m ++ r)) ++ rest := by simp [List.append_assoc]
                _ = g0 ++ (m ++ streamOf g tl) := by rw [← hbuf]; exact heq
                _ = (g0 ++ m) ++ streamOf g tl := by simp [List.append_assoc]
            exact List.append_cancel_left h3
          have hmg := magic_get? hmagic
          have h0 : gribAt (m ++ r) 0 := by
            refine ⟨?_, ?_, ?_, ?_⟩ <;> rw [List.get?_append (by omega)]
            exacts [hmg.1, hmg.2.1, hmg.2.2.1, hmg.2.2.2]
          have hno : ∀ idx, idx ≤ 2 → (m ++ r).get? idx ≠ some 66 := by
            intro idx hidx hsome
            rw [List.get?_append (by omega)] at hsome
            interval_cases idx
            · exact absurd (hmg.1.symm.trans hsome) (by decide)
            · exact absurd (hmg.2.1.symm.trans hsome) (by decide)
            · exact absurd (hmg.2.2.1.symm.trans hsome) (by decide)
          have hfind : findGrib buf = some g0.length := by
            rw [hbuf]; exact findGrib_garbage_at hg0 h0 hno
          have hdrop : buf.drop g0.length = m ++ r := by
            rw [hbuf, List.drop_left]
          have hte : try_extract_message buf = (some m, r) :=
            try_extract_of_message hfind hdrop
              ⟨h20, hle9, hmagic, hbe, hend⟩
          have hrlen : r.length < f := by
            have h1 := congrArg List.length hbuf
            simp only [List.length_append] at h1
            omega
          obtain ⟨k, g0x, hgx, hms, heq2, hinc⟩ :=
            ih r g rest tl hrlen hgg hok' htail
          refine ⟨k + 1, g0x, hgx, ?_, ?_, ?_⟩ <;>
            simp only [extract_loop, hte]
          · simp only [List.take_succ_cons, List.map_cons, hms]
          · simpa only [List.drop_succ_cons] using heq2
          · simpa only [List.drop_succ_cons] using hinc

/-- Chained version of `extract_loop_spec` over a whole sequence of `feed`
calls. -/
theorem feed_all_spec :
    ∀ (chunks : List (List Nat)) (buf g0 : List Nat)
      (ps : List (List Nat × List Nat)),
      gribFree g0 → okPairs ps →
      buf ++ chunks.foldr (· ++ ·) [] = streamOf g0 ps →
      incompleteFor buf g0 ps →
      ∃ k g0x, gribFree g0x ∧
        (feed_all buf chunks).1 = (ps.take k).map Prod.fst ∧
        (feed_all buf chunks).2 = streamOf g0x (ps.drop k) ∧
        incompleteFor (feed_all buf chunks).2 g0x (ps.drop k) := by
  intro chunks
  induction chunks with
  | nil =>
    intro buf g0 ps hg hok heq hinc
    refine ⟨0, g0, hg, rfl, ?_, hinc⟩
    simpa using heq
  | cons c cs ih =>
    intro buf g0 ps hg hok heq hinc
    have heq2 : (buf ++ c) ++ cs.foldr (· ++ ·) [] = streamOf g0 ps := by
      rw [List.append_assoc]
      simpa using heq
    obtain ⟨k1, g1, hg1, hms1, hrest1, hinc1⟩ :=
      extract_loop_spec ((buf ++ c).length + 1) (buf ++ c) g0
        (cs.foldr (· ++ ·) []) ps (by omega) hg hok heq2
    have hok1 : okPairs (ps.drop k1) :=
      fun p hp => hok p (List.mem_of_mem_drop hp)
    obtain ⟨k2, g2, hg2, hms2, hrest2, hinc2⟩ :=
      ih _ g1 (ps.drop k1) hg1 hok1 hrest1 hinc1
    refine ⟨k1 + k2, g2, hg2, ?_, ?_, ?_⟩ <;> simp only [feed_all, feed]
    · rw [List.take_add, List.map_append]
      exact congrArg₂ (· ++ ·) hms1 hms2
    · rw [hrest2, List.drop_drop]
    · rw [List.drop_drop] at hinc2
      exact hinc2

/-- Length of a stream that still starts with a message. -/
theorem streamOf_cons_length (g0 m g : List Nat)
    (tl : List (List Nat × List Nat)) :
    g0.length + m.length ≤ (streamOf g0 ((m, g) :: tl)).length := by
  simp only [streamOf, List.length_append]
  omega

/-- Feeding a complete garbage-interleaved stream, in any chunking, emits
exactly its well-formed messages, in order. -/
theorem feed_all_complete (chunks : List (List Nat)) (g0 : List Nat)
    (ps : List (List Nat × List Nat)) (hg : gribFree g0) (hok : okPairs ps)
    (heq : chunks.foldr (· ++ ·) [] = streamOf g0 ps) :
    (feed_all [] chunks).1 = ps.map Prod.fst := by
  have hinc : incompleteFor [] g0 ps := by
    intro m g tl hps
    have h20 : 20 ≤ m.length := (hok (m, g) (hps ▸ List.mem_cons_self ..)).1.1
    simp only [List.length_nil]
    omega
  obtain ⟨k, g0x, _, hms, hrest, hincx⟩ :=
    feed_all_spec chunks [] g0 ps hg hok (by simpa using heq) hinc
  have hdrop : ps.drop k = [] := by
    cases hps : ps.drop k with
    | nil => rfl
    | cons hd tl =>
      obtain ⟨m, g⟩ := hd
      have h1 := hincx m g tl hps
      have h2 := streamOf_cons_length g0x m g tl
      rw [hps] at hrest
      rw [hrest] at h1
      omega
  have hk : ps.length ≤ k := by
    have := List.drop_eq_nil_iff_le.mp hdrop
    omega
  rw [hms, List.take_of_length_le hk]

theorem try_extract_of_oversize {buf : List Nat} {pos : Nat}
    (h : findGrib buf = some pos) (hs : ¬ (buf.drop pos).length < 16)
    (hbig : be64 (((buf.drop pos).drop 8).take 8) > 1000000000) :
    try_extract_message buf = (none, (buf.drop pos).drop 4) := by
  unfold try_extract_message
  rw [h]
  simp only [if_neg hs, if_pos hbig]

-- A 20-byte minimal well-formed message and two smoke tests of the parser.
def tinyMsg : List Nat :=
  [71, 82, 73, 66, 0, 0, 0, 0, 0, 0, 0, 0, 0, 0, 0, 20, 55, 55, 55, 55]

example : wellFormedMessage tinyMsg := by decide
example : feed [] tinyMsg = ([tinyMsg], []) := by decide
example : feed [] ([9, 9, 9] ++ tinyMsg ++ [7, 7]) = ([tinyMsg], [7, 7]) := by
  decide

/-- A 16-byte `GRIB` header whose declared length is `2^64 - 1`, i.e. far
over the parser's 1 GB sanity bound. -/
def oversizedHdr : List Nat :=
  [71, 82, 73, 66, 255, 255, 255, 255, 255, 255, 255, 255, 255, 255, 255, 255]

/-- A second 16-byte oversized header (distinct bytes), and a 24-byte
well-formed message, used for the C5 inputs. -/
def oversizedHdrB : List Nat :=
  [71, 82, 73, 66, 238, 238, 238, 238, 238, 238, 238, 238, 238, 238, 238, 238]

def tinyMsgB : List Nat :=
  [71, 82, 73, 66, 1, 2, 3, 4, 0, 0, 0, 0, 0, 0, 0, 24,
   9, 9, 9, 9, 55, 55, 55, 55]

/-- C4, counterexample: one well-formed message, then garbage that happens
to contain a `GRIB` marker with an oversized declared length, then a
second well-formed message, all fed in a single chunk.  The claim
promises both messages are emitted; the parser stops its extraction loop
at the oversized marker and emits only the first. -/
theorem C4_counterexample :
    wellFormedMessage tinyMsg ∧
      (feed_all [] [tinyMsg ++ (oversizedHdr ++ tinyMsg)]).1 = [tinyMsg] := by
  decide

/-- C4 (amended): for every stream of well-formed messages (each at most
1 GB long) interleaved with garbage whose segments contain no `GRIB`
marker, feeding the stream in any partition into chunks emits exactly
the original messages, in their original order. -/
theorem C4_parser_framing (g0 : List Nat) (ps : List (List Nat × List Nat))
    (chunks : List (List Nat)) (hg : gribFree g0) (hok : okPairs ps)
    (heq : chunks.foldr (· ++ ·) [] = streamOf g0 ps) :
    (feed_all [] chunks).1 = ps.map Prod.fst :=
  feed_all_complete chunks g0 ps hg hok heq

def c4chunk1 : List Nat := [1, 2, 3] ++ tinyMsg.take 7

def c4chunk2 : List Nat := tinyMsg.drop 7 ++ ([9] ++ tinyMsgB)

theorem C4_parser_framing_witness :
    gribFree [1, 2, 3] ∧ okPairs [(tinyMsg, [9]), (tinyMsgB, [])] ∧
      [c4chunk1, c4chunk2].foldr (· ++ ·) [] =
        streamOf [1, 2, 3] [(tinyMsg, [9]), (tinyMsgB, [])] ∧
      (feed_all [] [c4chunk1, c4chunk2]).1 = [tinyMsg, tinyMsgB] :=
  ⟨by decide, by decide, by decide,
    C4_parser_framing [1, 2, 3] [(tinyMsg, [9]), (tinyMsgB, [])]
      [c4chunk1, c4chunk2] (by decide) (by decide) (by decide)⟩

/-- C5, counterexample: a well-formed message located after an oversized
marker in the same fed chunk is not emitted by that `feed` call (and no
later call happens), contradicting the claim that every well-formed
message after the marker is still emitted. -/
theorem C5_counterexample :
    wellFormedMessage tinyMsgB ∧
      (feed_all [] [oversizedHdrB ++ tinyMsgB]).1 = [] := by
  decide

/-- C5 (amended): on a declared length over 1 GB the parser advances past
the 4 marker bytes and returns no message from that `feed` call; the
search restarts on the next call, so a well-formed message after the
marker (with no further `GRIB` marker in between) is emitted by the
following `feed`. -/
theorem C5_oversize_skip (hdr g m : List Nat) (hlen : hdr.length = 16)
    (hmagic : hdr.take 4 = gribMagic)
    (hbig : be64 ((hdr.drop 8).take 8) > 1000000000)
    (hfree : gribFree (hdr.drop 4 ++ g)) (hwf : wellFormedMessage m) :
    feed [] (hdr ++ (g ++ m)) = ([], hdr.drop 4 ++ (g ++ m)) ∧
      (feed (hdr.drop 4 ++ (g ++ m)) []).1 = [m] := by
  have hmg := magic_get? hmagic
  constructor
  · have hfind : findGrib (hdr ++ (g ++ m)) = some 0 := by
      apply findGrib_some_of _ 0 _ (fun j hj => absurd hj (by omega))
      refine ⟨?_, ?_, ?_, ?_⟩ <;> rw [List.get?_append (by omega)]
      exacts [hmg.1, hmg.2.1, hmg.2.2.1, hmg.2.2.2]
    have hdrop0 : (hdr ++ (g ++ m)).drop 0 = hdr ++ (g ++ m) := rfl
    have hslice : (((hdr ++ (g ++ m)).drop 0).drop 8).take 8 =
        (hdr.drop 8).take 8 := by
      rw [hdrop0, List.drop_append_of_le_length (by omega),
        List.take_append_of_le_length (by simp [hlen])]
    have hte := try_extract_of_oversize hfind
      (by rw [hdrop0]; simp only [List.length_append]; omega)
      (by rw [hslice]; exact hbig)
    rw [hdrop0, List.drop_append_of_le_length (by omega)] at hte
    unfold feed
    have hfuel : (([] : List Nat) ++ (hdr ++ (g ++ m))).length =
        (hdr ++ (g ++ m)).length := by simp
    simp only [List.nil_append]
    cases hL : (hdr ++ (g ++ m)).length + 1 with
    | zero => omega
    | succ L =>
      simp only [extract_loop, hte]
  · have hstream : (hdr.drop 4 ++ (g ++ m)) ++ ([] : List Nat) =
        streamOf (hdr.drop 4 ++ g) [(m, [])] := by
      simp [streamOf, List.append_assoc]
    obtain ⟨k, g0x, hgx, hms, hrest, hincx⟩ :=
      extract_loop_spec ((hdr.drop 4 ++ (g ++ m)).length + 1)
        (hdr.drop 4 ++ (g ++ m)) (hdr.drop 4 ++ g) [] [(m, [])]
        (by omega) hfree
        (by intro p hp
            simp only [List.mem_singleton] at hp
            subst hp
            exact ⟨hwf, rfl⟩)
        hstream
    have hk : k ≠ 0 := by
      intro hk0
      subst hk0
      have h1 := hincx m [] [] rfl
      have h2 := streamOf_cons_length g0x m [] []
      simp only [List.drop_zero] at h1 hrest
      rw [List.append_nil] at hrest
      rw [hrest] at h1
      omega
    have hk1 : [(m, ([] : List Nat))].take k = [(m, [])] := by
      cases k with
      | zero => exact absurd rfl hk
      | succ k => simp
    unfold feed
    simp only [List.append_nil]
    rw [hms, hk1]
    rfl

theorem C5_oversize_skip_witness :
    oversizedHdrB.length = 16 ∧ oversizedHdrB.take 4 = gribMagic ∧
      be64 ((oversizedHdrB.drop 8).take 8) > 1000000000 ∧
      gribFree (oversizedHdrB.drop 4 ++ [3, 1, 4]) ∧
      wellFormedMessage tinyMsg ∧
      feed [] (oversizedHdrB ++ ([3, 1, 4] ++ tinyMsg)) =
        ([], oversizedHdrB.drop 4 ++ ([3, 1, 4] ++ tinyMsg)) ∧
      (feed (oversizedHdrB.drop 4 ++ ([3, 1, 4] ++ tinyMsg)) []).1 =
        [tinyMsg] := by
  refine ⟨by decide, by decide, by decide, by decide, by decide, ?_, ?_⟩
  · exact (C5_oversize_skip oversizedHdrB [3, 1, 4] tinyMsg (by decide)
      (by decide) (by decide) (by decide) (by decide)).1
  · exact (C5_oversize_skip oversizedHdrB [3, 1, 4] tinyMsg (by decide)
      (by decide) (by decide) (by decide) (by decide)).2

/-! ## Wind normalisation — src/server/src/grib_png.rs

`normalize_wind` computes in `f32`; every quantity involved here
(multiples of 1/2 in `[0, 255]` and small inputs) is represented exactly,
so the embedding uses `ℚ`. -/

/-- Rust `f32::round`: round half away from zero. -/
def rustRound (q : ℚ) : ℤ := if 0 ≤ q then ⌊q + 1 / 2⌋ else ⌈q - 1 / 2⌉

/-- `value.clamp(WIND_MIN, WIND_MAX)` with `WIND_MIN = -30.0`,
`WIND_MAX = 30.0` (ℚ has no NaN, so the NaN caveat of `f32::clamp` does
not arise). -/
def clampWind (value : ℚ) : ℚ := min (max value (-30)) 30

/-- `normalize_wind`:
`(((value.clamp(-30, 30)) - WIND_MIN) / (WIND_MAX - WIND_MIN) * 255).round() as u8`.
The `as u8` saturating cast is the identity because the rounded value
always lies in `[0, 255]` (proved in `normalize_wind_range`). -/
def normalize_wind (value : ℚ) : ℤ :=
  rustRound ((clampWind value - (-30)) / (30 - (-30)) * 255)

/-- Modelled from the spec: `normalize(x) = round(clamp(x, -30, 30) + 30) × 255 / 60`,
read (as the surrounding sentences force, since the result must be a
byte) as rounding the whole expression `(clamp(x, -30, 30) + 30) × 255 / 60`. -/
def spec_normalize (x : ℚ) : ℤ := rustRound ((clampWind x + 30) * 255 / 60)

theorem clampWind_mem (x : ℚ) : -30 ≤ clampWind x ∧ clampWind x ≤ 30 := by
  unfold clampWind
  constructor
  · exact le_min (le_max_right x (-30)) (by norm_num)
  · exact min_le_right _ _

theorem clampWind_mono {x y : ℚ} (h : x ≤ y) : clampWind x ≤ clampWind y :=
  min_le_min (max_le_max h le_rfl) le_rfl

theorem rustRound_mono {p q : ℚ} (h : p ≤ q) : rustRound p ≤ rustRound q := by
  unfold rustRound
  split_ifs with h1 h2 h2
  · exact Int.floor_le_floor (by linarith)
  · linarith
  · calc ⌈p - 1 / 2⌉ ≤ 0 := Int.ceil_le.mpr (by push_cast; linarith)
      _ ≤ ⌊q + 1 / 2⌋ := Int.floor_nonneg.mpr (by linarith)
  · exact Int.ceil_le_ceil (by linarith)

theorem normalize_wind_range (x : ℚ) :
    0 ≤ normalize_wind x ∧ normalize_wind x ≤ 255 := by
  obtain ⟨h1, h2⟩ := clampWind_mem x
  unfold normalize_wind rustRound
  rw [if_pos (by nlinarith)]
  constructor
  · exact Int.floor_nonneg.mpr (by nlinarith)
  · have h256 : ⌊(clampWind x - (-30)) / (30 - (-30)) * 255 + 1 / 2⌋ < 256 := by
      apply Int.floor_lt.mpr
      push_cast
      nlinarith
    omega

/-- C6: the wind normalisation maps every `x ≥ 30` to 255, every
`x ≤ -30` to 0, and `0` to 127 or 128; it is monotone non-decreasing;
and it agrees with the spec formula
`normalize(x) = round((clamp(x, -30, 30) + 30) × 255 / 60)`. -/
theorem C6_normalize_wind :
    (∀ x : ℚ, 30 ≤ x → normalize_wind x = 255) ∧
      (∀ x : ℚ, x ≤ -30 → normalize_wind x = 0) ∧
      (normalize_wind 0 = 127 ∨ normalize_wind 0 = 128) ∧
      (∀ x y : ℚ, x ≤ y → normalize_wind x ≤ normalize_wind y) ∧
      (∀ x : ℚ, normalize_wind x = spec_normalize x) := by
  refine ⟨?_, ?_, ?_, ?_, ?_⟩
  · intro x hx
    have hc : clampWind x = 30 := by
      unfold clampWind
      rw [max_eq_left (by linarith), min_eq_right hx]
    unfold normalize_wind
    rw [hc]
    norm_num [rustRound]
  · intro x hx
    have hc : clampWind x = -30 := by
      unfold clampWind
      rw [max_eq_right hx]
      norm_num
    unfold normalize_wind
    rw [hc]
    norm_num [rustRound]
  · right
    have hc : clampWind 0 = 0 := by unfold clampWind; norm_num
    unfold normalize_wind
    rw [hc]
    norm_num [rustRound]
  · intro x y hxy
    unfold normalize_wind
    apply rustRound_mono
    have hc := clampWind_mono hxy
    rw [div_mul_eq_mul_div, div_mul_eq_mul_div]
    exact (div_le_div_right (by norm_num)).mpr (by nlinarith)
  · intro x
    unfold normalize_wind spec_normalize
    exact congrArg rustRound (by ring)

theorem C6_normalize_wind_witness :
    (30 ≤ (31 : ℚ) ∧ normalize_wind 31 = 255) ∧
      ((-31 : ℚ) ≤ -30 ∧ normalize_wind (-31) = 0) ∧
      ((5 : ℚ) ≤ 7 ∧ normalize_wind 5 ≤ normalize_wind 7) ∧
      normalize_wind 9 = spec_normalize 9 :=
  ⟨⟨by norm_num, C6_normalize_wind.1 31 (by norm_num)⟩,
   ⟨by norm_num, C6_normalize_wind.2.1 (-31) (by norm_num)⟩,
   ⟨by norm_num, C6_normalize_wind.2.2.2.1 5 7 (by norm_num)⟩,
   C6_normalize_wind.2.2.2.2 9⟩

/-! ## Download retry policy — src/server/src/ncar_source.rs

`download_wind_data` runs `for attempt in 0..=MAX_RETRIES` around
`try_download_wind_data`, sleeping `backoff_with_jitter(attempt - 1)`
before every retry.  The embedding abstracts one call of
`try_download_wind_data` into its four possible outcomes and threads the
random jitter draws explicitly; `tokio::time::sleep` itself is not
modelled, only the slept durations are collected. -/

inductive AttemptOutcome
  | success (bytes : Nat)
  | notFound
  | nonRetryable
  | retryable
deriving DecidableEq

inductive DownloadResult
  | ok (bytes : Nat)
  | err
deriving DecidableEq

/-- `MAX_RETRIES` of ncar_source.rs. -/
def MAX_RETRIES : Nat := 4

/-- `backoff_with_jitter`: `base_delay = 2000 * 2^attempt` ms,
`jitter_range = (base_delay as f64 * 0.25) as u64` (exact: `base_delay`
is divisible by 4 at these magnitudes, so this is `base_delay / 4`),
the draw is uniform over `0..=jitter_range*2`, and the delay is
`max(base_delay + draw - jitter_range, 0)` milliseconds. -/
def backoff_with_jitter (attempt : Nat) (draw : Nat) : Int :=
  let baseDelay : Int := 2000 * 2 ^ attempt
  let jitterRange : Int := baseDelay / 4
  max (baseDelay + (draw : Int) - jitterRange) 0

/-- The sleep performed at the top of the loop iteration for attempt `i`:
nothing before the first attempt, `backoff_with_jitter(attempt - 1)`
before every retry. -/
def sleep_before (draws : Nat → Nat) (i : Nat) : List Int :=
  if i = 0 then [] else [backoff_with_jitter (i - 1) (draws (i - 1))]

/-- The `for attempt in 0..=MAX_RETRIES` loop of `download_wind_data`:
`i` is the index of the attempt about to run, the second argument the
number of loop iterations left.  `outcomes i` is what the i-th call of
`try_download_wind_data` produces, `draws i` the i-th jitter draw.
Returns the overall result, the number of attempts performed and the
delays slept, in order; when the loop exhausts its iterations the last
retryable error is returned (`Err(last_error)`). -/
def download_loop (outcomes : Nat → AttemptOutcome) (draws : Nat → Nat) :
    Nat → Nat → DownloadResult × Nat × List Int
  | i, 0 => (.err, i, [])
  | i, rem + 1 =>
    match outcomes i with
    | .success n => (.ok n, i + 1, sleep_before draws i)
    | .notFound => (.ok 0, i + 1, sleep_before draws i)
    | .nonRetryable => (.err, i + 1, sleep_before draws i)
    | .retryable =>
      let r := download_loop outcomes draws (i + 1) rem
      (r.1, r.2.1, sleep_before draws i ++ r.2.2)

/-- `NcarSource::download_wind_data` (control flow): a 404 returns
`Ok(0)` immediately, a non-404 4xx fails immediately, retryable
failures loop over `0..=MAX_RETRIES`. -/
def download_wind_data (outcomes : Nat → AttemptOutcome)
    (draws : Nat → Nat) : DownloadResult × Nat × List Int :=
  download_loop outcomes draws 0 (MAX_RETRIES + 1)

/-- Unfolding equations for `download_loop`, stated by `rfl` (the
equation compiler fuses the nested match and generates none). -/
theorem download_loop_zero (outcomes : Nat → AttemptOutcome)
    (draws : Nat → Nat) (i : Nat) :
    download_loop outcomes draws i 0 = (.err, i, []) := rfl

theorem download_loop_succ (outcomes : Nat → AttemptOutcome)
    (draws : Nat → Nat) (i rem : Nat) :
    download_loop outcomes draws i (rem + 1) =
      (match outcomes i with
      | .success n => (.ok n, i + 1, sleep_before draws i)
      | .notFound => (.ok 0, i + 1, sleep_before draws i)
      | .nonRetryable => (.err, i + 1, sleep_before draws i)
      | .retryable =>
        let r := download_loop outcomes draws (i + 1) rem
        (r.1, r.2.1, sleep_before draws i ++ r.2.2)) := rfl

theorem download_loop_attempts (outcomes : Nat → AttemptOutcome)
    (draws : Nat → Nat) :
    ∀ (rem i : Nat), (download_loop outcomes draws i rem).2.1 ≤ i + rem := by
  intro rem
  induction rem with
  | zero => intro i; rw [download_loop_zero]; dsimp only; omega
  | succ rem ih =>
    intro i
    rw [download_loop_succ]
    cases h : outcomes i with
    | success n => dsimp only; omega
    | notFound => dsimp only; omega
    | nonRetryable => dsimp only; omega
    | retryable =>
      have := ih (i + 1)
      dsimp only
      omega
/-- Unrolling the loop over a block of retryable attempts. -/
theorem download_loop_skip (outcomes : Nat → AttemptOutcome)
    (draws : Nat → Nat) :
    ∀ (cnt start rem : Nat),
      (∀ j, j < cnt → outcomes (start + j) = .retryable) → cnt ≤ rem →
      download_loop outcomes draws start (rem + 1) =
        ((download_loop outcomes draws (start + cnt) (rem + 1 - cnt)).1,
         (download_loop outcomes draws (start + cnt) (rem + 1 - cnt)).2.1,
         ((List.range cnt).map fun j => sleep_before draws (start + j)).flatten
           ++ (download_loop outcomes draws (start + cnt) (rem + 1 - cnt)).2.2) := by
  intro cnt
  induction cnt with
  | zero =>
    intro start rem _ _
    simp
  | succ cnt ih =>
    intro start rem hret hrem
    have h0 : outcomes start = .retryable := by
      have := hret 0 (by omega)
      simpa using this
    obtain ⟨rem', rfl⟩ : ∃ rem', rem = rem' + 1 := ⟨rem - 1, by omega⟩
    rw [download_loop_succ]
    rw [h0]
    have hshift : ∀ j, j < cnt → outcomes (start + 1 + j) = .retryable := by
      intro j hj
      have := hret (j + 1) (by omega)
      rwa [show start + (j + 1) = start + 1 + j by omega] at this
    have hrec := ih (start + 1) rem' hshift (by omega)
    dsimp only
    rw [hrec]
    have h1 : start + 1 + cnt = start + (cnt + 1) := by omega
    have h2 : rem' + 1 - cnt = rem' + 1 + 1 - (cnt + 1) := by omega
    rw [h1, h2]
    refine congrArg₂ Prod.mk rfl (congrArg₂ Prod.mk rfl ?_)
    rw [List.range_succ_eq_map, List.map_cons, List.map_map,
      List.flatten_cons, ← List.append_assoc]
    refine congrArg₂ (· ++ ·) ?_ rfl
    refine congrArg₂ (· ++ ·) (by rw [Nat.add_zero]) ?_
    refine congrArg List.flatten ?_
    apply List.map_congr_left
    intro k _
    simp only [Function.comp_apply]
    rw [show start + (k + 1) = start + 1 + k by omega]
/-- The delays slept once attempts `0..t` have run: `backoff_with_jitter k`
between attempt `k` and attempt `k+1`. -/
def expected_delays (draws : Nat → Nat) (t : Nat) : List Int :=
  (List.range t).map fun k => backoff_with_jitter k (draws k)

theorem flatten_sleeps (draws : Nat → Nat) :
    ∀ i, ((List.range i).map fun j => sleep_before draws j).flatten
        ++ sleep_before draws i = expected_delays draws i := by
  intro i
  induction i with
  | zero => simp [sleep_before, expected_delays]
  | succ i ih =>
    rw [List.range_succ, List.map_append, List.flatten_append]
    simp only [List.map_cons, List.map_nil, List.flatten_cons,
      List.flatten_nil, List.append_nil]
    rw [List.append_assoc, show sleep_before draws (i + 1) =
      [backoff_with_jitter i (draws i)] by simp [sleep_before]]
    rw [← List.append_assoc, ih]
    rw [expected_delays, expected_delays, List.range_succ, List.map_append]
    rfl
/-- C9 (amended): an ingestion download task performs at most **5**
attempts (`MAX_RETRIES = 4` counts retries after the first attempt, the
loop being `for attempt in 0..=MAX_RETRIES`); only retryable failures
trigger another attempt, with delay `2 s × 2^k` plus jitter of at most
±25 % slept between attempt `k` and attempt `k+1`; a non-404 4xx
response fails immediately without retry; a 404 makes the task return
`Ok(0)` without retrying; five retryable failures exhaust the budget. -/
theorem C9_download_retry (outcomes : Nat → AttemptOutcome)
    (draws : Nat → Nat) :
    (download_wind_data outcomes draws).2.1 ≤ 5 ∧
      (∀ i, i ≤ 4 → (∀ j, j < i → outcomes j = .retryable) →
        (∀ n, outcomes i = .success n →
          download_wind_data outcomes draws =
            (.ok n, i + 1, expected_delays draws i)) ∧
        (outcomes i = .notFound →
          download_wind_data outcomes draws =
            (.ok 0, i + 1, expected_delays draws i)) ∧
        (outcomes i = .nonRetryable →
          download_wind_data outcomes draws =
            (.err, i + 1, expected_delays draws i))) ∧
      ((∀ j, j < 5 → outcomes j = .retryable) →
        download_wind_data outcomes draws =
          (.err, 5, expected_delays draws 4)) ∧
      (∀ k draw, draw ≤ 2 * (2000 * 2 ^ k / 4) →
        1500 * 2 ^ k ≤ backoff_with_jitter k draw ∧
          backoff_with_jitter k draw ≤ 2500 * 2 ^ k) := by
  have hdata : download_wind_data outcomes draws =
      download_loop outcomes draws 0 (4 + 1) := rfl
  refine ⟨?_, ?_, ?_, ?_⟩
  · have := download_loop_attempts outcomes draws (4 + 1) 0
    rw [hdata]
    omega
  · intro i hi hr
    have hskip := download_loop_skip outcomes draws i 0 4
      (by intro j hj; simpa using hr j (by omega)) (by omega)
    simp only [Nat.zero_add] at hskip
    obtain ⟨s, hs⟩ : ∃ s, 4 + 1 - i = s + 1 := ⟨4 - i, by omega⟩
    rw [hs] at hskip
    have hflat := flatten_sleeps draws i
    refine ⟨?_, ?_, ?_⟩
    · intro n hn
      rw [hdata, hskip, download_loop_succ, hn]
      dsimp only
      rw [hflat]
    · intro hn
      rw [hdata, hskip, download_loop_succ, hn]
      dsimp only
      rw [hflat]
    · intro hn
      rw [hdata, hskip, download_loop_succ, hn]
      dsimp only
      rw [hflat]
  · intro hr
    have hskip := download_loop_skip outcomes draws 4 0 4
      (by intro j hj; simpa using hr j (by omega)) (by omega)
    simp only [Nat.zero_add] at hskip
    have h1 : (4 : Nat) + 1 - 4 = 0 + 1 := by omega
    rw [h1] at hskip
    rw [hdata, hskip, download_loop_succ, hr 4 (by omega)]
    dsimp only
    rw [download_loop_zero]
    dsimp only
    rw [List.append_nil]
    rw [flatten_sleeps draws 4]
  · intro k draw hdraw
    unfold backoff_with_jitter
    have h4 : (2000 * 2 ^ k : Int) = 4 * (500 * 2 ^ k) := by ring
    have hjr : (2000 * 2 ^ k : Int) / 4 = 500 * 2 ^ k := by
      rw [h4, Int.mul_ediv_cancel_left _ (by norm_num)]
    have hjrn : (2000 * 2 ^ k : Nat) / 4 = 500 * 2 ^ k := by
      omega
    rw [hjr] at *
    have hdraw2 : (draw : Int) ≤ 2 * (500 * 2 ^ k) := by
      have : draw ≤ 2 * (500 * 2 ^ k) := by
        calc draw ≤ 2 * (2000 * 2 ^ k / 4) := hdraw
          _ = 2 * (500 * 2 ^ k) := by rw [hjrn]
      exact_mod_cast this
    have hp : (0 : Int) ≤ 2 ^ k := by positivity
    have hd0 : (0 : Int) ≤ (draw : Int) := Int.natCast_nonneg draw
    constructor
    · rw [max_eq_left (by linarith)]
      linarith
    · rw [max_eq_left (by linarith)]
      linarith
/-- C9, counterexample: with every attempt failing retryably the task
performs 5 attempts, not at most 4 as the claim states. -/
theorem C9_counterexample :
    (download_wind_data (fun _ => .retryable) (fun _ => 0)).2.1 = 5 ∧
      ¬ (download_wind_data (fun _ => .retryable) (fun _ => 0)).2.1 ≤ 4 := by
  decide

def c9outcomes (j : Nat) : AttemptOutcome :=
  if j < 2 then .retryable else .nonRetryable

def c9draws (_ : Nat) : Nat := 100

theorem C9_download_retry_witness :
    (2 : Nat) ≤ 4 ∧ (∀ j, j < 2 → c9outcomes j = .retryable) ∧
      c9outcomes 2 = .nonRetryable ∧
      download_wind_data c9outcomes c9draws =
        (.err, 3, expected_delays c9draws 2) ∧
      (100 : Nat) ≤ 2 * (2000 * 2 ^ 1 / 4) ∧
      1500 * 2 ^ 1 ≤ backoff_with_jitter 1 100 ∧
      backoff_with_jitter 1 100 ≤ 2500 * 2 ^ 1 :=
  ⟨by norm_num, fun j hj => by interval_cases j <;> rfl, rfl,
    ((C9_download_retry c9outcomes c9draws).2.1 2 (by norm_num)
      (fun j hj => by interval_cases j <;> rfl)).2.2 rfl,
    by norm_num,
    ((C9_download_retry c9outcomes c9draws).2.2.2 1 100 (by norm_num)).1,
    ((C9_download_retry c9outcomes c9draws).2.2.2 1 100 (by norm_num)).2⟩
/-! ## Object-key schema — src/server/src/ncar_source.rs and
src/server/src/wind_reports.rs

Rust strings are modelled as `List Char`.  All paths involved are ASCII,
so byte indices and char indices coincide; `strSlice?` models Rust's
panicking slice `s[a..b]` (`none` = panic).  Number formatting follows
chrono (`%Y` zero-padded to 4 digits for years 0..9999, `%m`/`%d`
zero-padded to 2) and Rust `Display`; number parsing follows
`str::parse` for `u32`/`i32` (optional sign, then decimal digits; the
machine-width overflow check is not modelled, and chrono's ±262000 year
bound is not modelled — no statement below depends on either). -/

def digitChar (d : Nat) : Char := Char.ofNat (48 + d)

def charVal (c : Char) : Nat := c.toNat - 48

/-- Big-endian decimal digits of `n` (`[0]` for `n = 0`), as `Nat`s. -/
def digitsOf (n : Nat) : List Nat :=
  if n = 0 then [0] else (Nat.digits 10 n).reverse

/-- Decimal representation of `n`, fuel-based so that concrete inputs
evaluate by `decide`; `natToChars_eq_digitsOf` ties it to `digitsOf`. -/
def natToCharsAux : Nat → Nat → List Char → List Char
  | 0, _, acc => acc
  | fuel + 1, n, acc =>
    if n < 10 then digitChar n :: acc
    else natToCharsAux fuel (n / 10) (digitChar (n % 10) :: acc)

def natToChars (n : Nat) : List Char := natToCharsAux (n + 1) n []

theorem natToCharsAux_spec :
    ∀ (fuel n : Nat) (acc : List Char), n < fuel →
      natToCharsAux fuel n acc = (digitsOf n).map digitChar ++ acc := by
  intro fuel
  induction fuel with
  | zero => intro n _ h; omega
  | succ fuel ih =>
    intro n acc h
    by_cases h10 : n < 10
    · rw [natToCharsAux, if_pos h10]
      by_cases h0 : n = 0
      · subst h0; simp [digitsOf]
      · have : Nat.digits 10 n = [n] := by
          rw [Nat.digits_def' (by norm_num : 1 < 10) (by omega)]
          rw [Nat.mod_eq_of_lt h10, Nat.div_eq_of_lt h10]
          simp
        simp [digitsOf, h0, this]
    · rw [natToCharsAux, if_neg h10]
      have hrec := ih (n / 10) (digitChar (n % 10) :: acc) (by omega)
      rw [hrec]
      have hsplit : digitsOf n = digitsOf (n / 10) ++ [n % 10] := by
        have hn0 : n ≠ 0 := by omega
        have hq0 : n / 10 ≠ 0 := by omega
        rw [digitsOf, digitsOf, if_neg hn0, if_neg hq0]
        rw [Nat.digits_def' (by norm_num : 1 < 10) (by omega)]
        simp
      rw [hsplit, List.map_append]
      simp

theorem natToChars_eq_digitsOf (n : Nat) :
    natToChars n = (digitsOf n).map digitChar := by
  rw [natToChars, natToCharsAux_spec (n + 1) n [] (by omega), List.append_nil]

theorem digitsOf_lt (n : Nat) : ∀ d ∈ digitsOf n, d < 10 := by
  intro d hd
  rw [digitsOf] at hd
  split_ifs at hd with h0
  · simp at hd; omega
  · rw [List.mem_reverse] at hd
    exact Nat.digits_lt_base (by norm_num) hd

theorem digitsOf_ne_nil (n : Nat) : digitsOf n ≠ [] := by
  rw [digitsOf]
  split_ifs with h0
  · simp
  · simp [Nat.digits_ne_nil_iff_ne_zero.mpr h0]

theorem digitChar_toNat {d : Nat} (h : d < 10) : (digitChar d).toNat = 48 + d := by
  interval_cases d <;> rfl

theorem charVal_digitChar {d : Nat} (h : d < 10) : charVal (digitChar d) = d := by
  rw [charVal, digitChar_toNat h]
  omega

theorem digitChar_isDigit {d : Nat} (h : d < 10) : (digitChar d).isDigit = true := by
  interval_cases d <;> rfl

theorem digitChar_ne {d : Nat} (h : d < 10) :
    digitChar d ≠ '/' ∧ digitChar d ≠ '-' ∧ digitChar d ≠ '+' := by
  interval_cases d <;> exact ⟨by decide, by decide, by decide⟩
theorem foldr_ofDigits :
    ∀ l : List Nat, List.foldr (fun d a => a * 10 + d) 0 l = Nat.ofDigits 10 l := by
  intro l
  induction l with
  | nil => simp [Nat.ofDigits]
  | cons d t ih =>
    rw [List.foldr_cons, ih, Nat.ofDigits_cons]
    ring

theorem foldl_digits_eval (n : Nat) :
    List.foldl (fun x d => x * 10 + d) 0 (digitsOf n) = n := by
  rw [digitsOf]
  split_ifs with h0
  · subst h0; rfl
  · rw [List.foldl_reverse]
    calc List.foldr (fun x y => y * 10 + x) 0 (Nat.digits 10 n)
        = Nat.ofDigits 10 (Nat.digits 10 n) := foldr_ofDigits _
      _ = n := Nat.ofDigits_digits 10 n

theorem foldl_digit_chars :
    ∀ (ds : List Nat) (a : Nat), (∀ d ∈ ds, d < 10) →
      List.foldl (fun x c => x * 10 + charVal c) a (ds.map digitChar) =
        List.foldl (fun x d => x * 10 + d) a ds := by
  intro ds
  induction ds with
  | nil => intro a _; rfl
  | cons d t ih =>
    intro a hlt
    rw [List.map_cons, List.foldl_cons, List.foldl_cons,
      charVal_digitChar (hlt d (List.mem_cons_self ..))]
    exact ih _ (fun x hx => hlt x (List.mem_cons_of_mem _ hx))

/-- Left-pad with `'0'` to width `w` (chrono's `%Y`, `%m`, `%d`). -/
def padZeros (w : Nat) (l : List Char) : List Char :=
  List.replicate (w - l.length) '0' ++ l

/-- `{:02}` of a month/day, chrono `%m` / `%d`. -/
def pad2 (n : Nat) : List Char := padZeros 2 (natToChars n)

/-- chrono `%Y`: zero-padded to 4 for years 0..9999, `+`-prefixed above
9999, `-` and 4-digit padding below 0. -/
def formatYear (y : Int) : List Char :=
  if y < 0 then '-' :: padZeros 4 (natToChars (-y).toNat)
  else if y ≤ 9999 then padZeros 4 (natToChars y.toNat)
  else '+' :: natToChars y.toNat

/-- Rust `Display` for an `i32`. -/
def intToChars (y : Int) : List Char :=
  if y < 0 then '-' :: natToChars (-y).toNat else natToChars y.toNat

/-- `str::parse` digits core: non-empty all-digit string folded to a
number (machine-width overflow not modelled). -/
def parseNatDigits? (l : List Char) : Option Nat :=
  if l ≠ [] ∧ l.all Char.isDigit then
    some (l.foldl (fun a c => a * 10 + charVal c) 0)
  else none

/-- `str::parse::<u32>`: optional leading `+`. -/
def parseU32? (l : List Char) : Option Nat :=
  if l.head? = some '+' then parseNatDigits? l.tail else parseNatDigits? l

/-- `str::parse::<i32>`: optional leading `+` or `-`. -/
def parseI32? (l : List Char) : Option Int :=
  if l.head? = some '-' then (parseNatDigits? l.tail).map (fun n => -(n : Int))
  else if l.head? = some '+' then (parseNatDigits? l.tail).map (fun n => (n : Int))
  else (parseNatDigits? l).map (fun n => (n : Int))

theorem foldl_zeros (k : Nat) :
    List.foldl (fun a c => a * 10 + charVal c) 0 (List.replicate k '0') = 0 := by
  induction k with
  | zero => rfl
  | succ k ih => rwa [List.replicate_succ, List.foldl_cons]

theorem natToChars_all_digits (n : Nat) :
    (natToChars n).all Char.isDigit = true := by
  rw [natToChars_eq_digitsOf, List.all_eq_true]
  intro c hc
  rw [List.mem_map] at hc
  obtain ⟨d, hd, rfl⟩ := hc
  exact digitChar_isDigit (digitsOf_lt n d hd)

theorem parseNatDigits?_padZeros (w n : Nat) :
    parseNatDigits? (padZeros w (natToChars n)) = some n := by
  rw [parseNatDigits?, if_pos, padZeros, List.foldl_append, foldl_zeros,
    natToChars_eq_digitsOf, foldl_digit_chars _ _ (digitsOf_lt n),
    foldl_digits_eval]
  constructor
  · rw [padZeros]
    intro hnil
    have := congrArg List.length hnil
    rw [List.length_append, natToChars_eq_digitsOf] at this
    simp at this
    exact digitsOf_ne_nil n this.2
  · rw [padZeros, List.all_append, natToChars_all_digits]
    rw [Bool.and_eq_true, List.all_eq_true]
    refine ⟨fun c hc => ?_, rfl⟩
    rw [List.eq_of_mem_replicate hc]
    rfl

theorem parseNatDigits?_natToChars (n : Nat) :
    parseNatDigits? (natToChars n) = some n := by
  have := parseNatDigits?_padZeros 0 n
  rwa [padZeros, Nat.zero_sub, List.replicate_zero, List.nil_append] at this
theorem padZeros_all_digits (w n : Nat) :
    (padZeros w (natToChars n)).all Char.isDigit = true := by
  rw [padZeros, List.all_append, natToChars_all_digits,
    Bool.and_eq_true, List.all_eq_true]
  refine ⟨fun c hc => ?_, rfl⟩
  rw [List.eq_of_mem_replicate hc]
  rfl

theorem padZeros_head_digit (w n : Nat) {c : Char}
    (h : (padZeros w (natToChars n)).head? = some c) : c.isDigit = true := by
  have hmem : c ∈ padZeros w (natToChars n) := List.mem_of_mem_head? h
  have := padZeros_all_digits w n
  rw [List.all_eq_true] at this
  exact this c hmem

theorem parseU32?_padZeros (w n : Nat) :
    parseU32? (padZeros w (natToChars n)) = some n := by
  rw [parseU32?, if_neg, parseNatDigits?_padZeros]
  intro h
  have := padZeros_head_digit w n h
  exact absurd this (by decide)

theorem parseU32?_natToChars (n : Nat) :
    parseU32? (natToChars n) = some n := by
  have := parseU32?_padZeros 0 n
  rwa [padZeros, Nat.zero_sub, List.replicate_zero, List.nil_append] at this

theorem parseI32?_padZeros (w n : Nat) :
    parseI32? (padZeros w (natToChars n)) = some (n : Int) := by
  rw [parseI32?, if_neg, if_neg]
  · simp [parseNatDigits?_padZeros]
  · intro h
    have := padZeros_head_digit w n h
    exact absurd this (by decide)
  · intro h
    have := padZeros_head_digit w n h
    exact absurd this (by decide)

/-- Rust `str::split('/')`, over chars. -/
def splitOnChar (sep : Char) (l : List Char) : List (List Char) :=
  l.foldr (fun c acc =>
    if c = sep then [] :: acc
    else (c :: acc.headD []) :: acc.tail) [[]]

theorem splitOnChar_no_sep (sep : Char) :
    ∀ l : List Char, (∀ c ∈ l, c ≠ sep) → splitOnChar sep l = [l] := by
  intro l
  induction l with
  | nil => intro _; rfl
  | cons c rest ih =>
    intro h
    rw [splitOnChar, List.foldr_cons, ← splitOnChar,
      ih (fun x hx => h x (List.mem_cons_of_mem _ hx)),
      if_neg (h c (List.mem_cons_self ..))]
    rfl

theorem splitOnChar_sep_append (sep : Char) :
    ∀ (a b : List Char), (∀ c ∈ a, c ≠ sep) →
      splitOnChar sep (a ++ sep :: b) = a :: splitOnChar sep b := by
  intro a
  induction a with
  | nil =>
    intro b _
    rw [List.nil_append, splitOnChar, List.foldr_cons, if_pos rfl]
    rfl
  | cons c a ih =>
    intro b h
    rw [List.cons_append, splitOnChar, List.foldr_cons, ← splitOnChar,
      ih b (fun x hx => h x (List.mem_cons_of_mem _ hx)),
      if_neg (h c (List.mem_cons_self ..))]
    rfl

/-- Rust's panicking byte-slice `s[a..b]` (`none` models the panic; the
paths involved are ASCII, so char and byte indices coincide). -/
def strSlice? (l : List Char) (a b : Nat) : Option (List Char) :=
  if a ≤ b ∧ b ≤ l.length then some ((l.drop a).take (b - a)) else none

/-- A proleptic-Gregorian calendar date, as in `chrono::NaiveDate`. -/
structure YMD where
  year : Int
  month : Nat
  day : Nat
deriving DecidableEq

def leapYear (y : Int) : Bool := (y % 4 == 0 && y % 100 != 0) || y % 400 == 0

def daysInMonth (y : Int) (m : Nat) : Nat :=
  match m with
  | 1 => 31 | 2 => if leapYear y then 29 else 28 | 3 => 31 | 4 => 30
  | 5 => 31 | 6 => 30 | 7 => 31 | 8 => 31 | 9 => 30 | 10 => 31
  | 11 => 30 | 12 => 31 | _ => 0

/-- `NaiveDate::from_ymd_opt` (the ±262000 year bound of chrono is not
modelled; nothing below depends on it). -/
def from_ymd_opt (y : Int) (m d : Nat) : Option YMD :=
  if 1 ≤ m ∧ m ≤ 12 ∧ 1 ≤ d ∧ d ≤ daysInMonth y m then some ⟨y, m, d⟩
  else none

structure UtcTime where
  date : YMD
  hour : Nat
  minute : Nat
  second : Nat
deriving DecidableEq

/-- `NaiveDate::and_hms_opt` followed by `.and_utc()`. -/
def and_hms_opt (d : YMD) (h m s : Nat) : Option UtcTime :=
  if h ≤ 23 ∧ m ≤ 59 ∧ s ≤ 59 then some ⟨d, h, m, s⟩ else none

/-- `WindReport` of wind_reports.rs (time as a calendar instant). -/
structure WindReport where
  time : UtcTime
  grib_path : List Char
  png_path : List Char
  source : List Char
deriving DecidableEq

/-- `ncar_grib_path`: `format!("ncar/{}/{}/wind.grib2", day.format("%Y/%m%d"), hour)`. -/
def ncar_grib_path (day : YMD) (hour : Nat) : List Char :=
  "ncar/".toList ++ formatYear day.year ++ "/".toList ++
    pad2 day.month ++ pad2 day.day ++ "/".toList ++ natToChars hour ++
    "/wind.grib2".toList

/-- `ncar_raster_path`: `format!("ncar/{}/{}/uv.png", day.format("%Y/%m%d"), hour)`. -/
def ncar_raster_path (day : YMD) (hour : Nat) : List Char :=
  "ncar/".toList ++ formatYear day.year ++ "/".toList ++
    pad2 day.month ++ pad2 day.day ++ "/".toList ++ natToChars hour ++
    "/uv.png".toList

/-- `parse_ncar_png_path` of wind_reports.rs.  The outer `Option` models
abrupt failure: `none` is a Rust panic (the byte-slices `parts[2][0..2]`
and `parts[2][2..4]` panic when `parts[2]` is shorter than 2 resp. 4
bytes); `some none` is a clean `None`; `some (some r)` is `Some(r)`.
Note the last segment (`parts[4]`) is never compared against `uv.png`. -/
def parse_ncar_png_path (path : List Char) : Option (Option WindReport) :=
  match splitOnChar '/' path with
  | [p0, p1, p2, p3, _p4] =>
    if p0 ≠ "ncar".toList then some none
    else match parseI32? p1 with
    | none => some none
    | some year =>
      match strSlice? p2 0 2 with
      | none => none
      | some mm =>
        match parseU32? mm with
        | none => some none
        | some month =>
          match strSlice? p2 2 4 with
          | none => none
          | some dd =>
            match parseU32? dd with
            | none => some none
            | some day =>
              match parseU32? p3 with
              | none => some none
              | some hour =>
                match from_ymd_opt year month day with
                | none => some none
                | some date =>
                  match and_hms_opt date hour 0 0 with
                  | none => some none
                  | some target_time =>
                    some (some
                      { time := target_time
                        grib_path := "ncar/".toList ++ intToChars year ++
                          "/".toList ++ pad2 month ++ pad2 day ++
                          "/".toList ++ natToChars hour ++
                          "/wind.grib2".toList
                        png_path := path
                        source := "ncar".toList })
  | _ => some none
theorem natToChars_length_le {n k : Nat} (hk : 1 ≤ k) (h : n < 10 ^ k) :
    (natToChars n).length ≤ k := by
  rw [natToChars_eq_digitsOf, List.length_map, digitsOf]
  split_ifs with h0
  · simpa using hk
  · rw [List.length_reverse, Nat.digits_len 10 n (by norm_num) h0]
    have := (Nat.lt_pow_iff_log_lt (by norm_num : 1 < 10) h0).mp h
    omega

theorem natToChars_length_eq {n k : Nat} (h1 : 10 ^ k ≤ n)
    (h2 : n < 10 ^ (k + 1)) : (natToChars n).length = k + 1 := by
  have h0 : n ≠ 0 := by
    have := Nat.one_le_iff_ne_zero.mp (le_trans (Nat.one_le_pow _ _ (by norm_num)) h1)
    exact this
  rw [natToChars_eq_digitsOf, List.length_map, digitsOf, if_neg h0,
    List.length_reverse, Nat.digits_len 10 n (by norm_num) h0,
    Nat.log_eq_of_pow_le_of_lt_pow h1 h2]

theorem pad2_length {n : Nat} (h : n < 100) : (pad2 n).length = 2 := by
  rw [pad2, padZeros, List.length_append, List.length_replicate]
  have h2 : n < 10 ^ 2 := by
    calc n < 100 := h
      _ = 10 ^ 2 := by norm_num
  have := natToChars_length_le (by norm_num) h2
  omega

theorem padZeros_of_length {w : Nat} {l : List Char} (h : l.length = w) :
    padZeros w l = l := by
  rw [padZeros, h, Nat.sub_self, List.replicate_zero, List.nil_append]

theorem digit_ne_slash {c : Char} (h : c.isDigit = true) : c ≠ '/' := by
  intro heq
  subst heq
  exact absurd h (by decide)

theorem all_digits_no_slash {l : List Char} (h : l.all Char.isDigit = true) :
    ∀ c ∈ l, c ≠ '/' :=
  fun c hc => digit_ne_slash (List.all_eq_true.mp h c hc)
/-- C7: the raster-key parser is claimed total (malformed keys yield
`None`, never a panic); but on a key whose date segment is shorter than
the schema requires, the byte slice `parts[2][0..2]` panics (outer
`none` in the embedding). -/
theorem C7_parse_panics :
    parse_ncar_png_path ("ncar/2020/1/0/uv.png".toList) = none := by decide

/-- C8, counterexample: for the valid calendar date 0001-01-01 and hour
0, parsing the raster key succeeds but reconstructs a grib path with the
year printed unpadded (`ncar/1/...`), which differs from the grib key
builder's `%Y`-padded `ncar/0001/...`. -/
theorem C8_counterexample :
    (1 ≤ (1 : Nat) ∧ (1 : Nat) ≤ 12 ∧ (1 : Nat) ≤ daysInMonth 1 1 ∧
      (0 : Nat) ≤ 23) ∧
    parse_ncar_png_path (ncar_raster_path ⟨1, 1, 1⟩ 0) =
      some (some
        { time := ⟨⟨1, 1, 1⟩, 0, 0, 0⟩
          grib_path := "ncar/1/0101/0/wind.grib2".toList
          png_path := ncar_raster_path ⟨1, 1, 1⟩ 0
          source := "ncar".toList }) ∧
    "ncar/1/0101/0/wind.grib2".toList ≠ ncar_grib_path ⟨1, 1, 1⟩ 0 := by
  decide
/-- C8 (amended): for every valid calendar date with a four-digit year
(1000..9999) and every hour 0..23, parsing the raster key built for that
(date, hour) succeeds and yields a report whose time equals exactly that
date and hour (UTC, minutes and seconds zero) and whose grib_path equals
the grib key built for the same (date, hour).  For years outside
1000..9999 the time still round-trips but the reconstructed grib_path
differs, because the parser re-prints the year without chrono's `%Y`
padding — see the counterexample. -/
theorem C8_path_roundtrip (y : Int) (m d h : Nat)
    (hy1 : 1000 ≤ y) (hy2 : y ≤ 9999)
    (hm1 : 1 ≤ m) (hm2 : m ≤ 12) (hd1 : 1 ≤ d) (hd2 : d ≤ daysInMonth y m)
    (hh : h ≤ 23) :
    parse_ncar_png_path (ncar_raster_path ⟨y, m, d⟩ h) =
      some (some
        { time := ⟨⟨y, m, d⟩, h, 0, 0⟩
          grib_path := ncar_grib_path ⟨y, m, d⟩ h
          png_path := ncar_raster_path ⟨y, m, d⟩ h
          source := "ncar".toList }) := by
  have hy0 : ¬ y < 0 := by omega
  have hfy : formatYear y = padZeros 4 (natToChars y.toNat) := by
    rw [formatYear, if_neg hy0, if_pos hy2]
  have hy4 : (natToChars y.toNat).length = 4 := by
    have e1 : (10 : Nat) ^ 3 ≤ y.toNat := by
      calc (10 : Nat) ^ 3 = 1000 := by norm_num
        _ ≤ y.toNat := by omega
    have e2 : y.toNat < 10 ^ (3 + 1) := by
      calc y.toNat < 10000 := by omega
        _ = 10 ^ (3 + 1) := by norm_num
    exact natToChars_length_eq e1 e2
  have hfy2 : formatYear y = natToChars y.toNat := by
    rw [hfy, padZeros_of_length hy4]
  have hiy : intToChars y = natToChars y.toNat := by
    rw [intToChars, if_neg hy0]
  have hdm31 : daysInMonth y m ≤ 31 := by
    interval_cases m <;> simp [daysInMonth] <;> split_ifs <;> omega
  have hlm : (pad2 m).length = 2 := pad2_length (by omega)
  have hld : (pad2 d).length = 2 := pad2_length (by omega)
  have hshape : ncar_raster_path ⟨y, m, d⟩ h =
      "ncar".toList ++ '/' :: (formatYear y ++ '/' ::
        ((pad2 m ++ pad2 d) ++ '/' :: (natToChars h ++ '/' ::
          "uv.png".toList))) := by
    have e1 : ("ncar/".toList : List Char) = 'n' :: 'c' :: 'a' :: 'r' :: '/' :: [] := rfl
    have e2 : ("/".toList : List Char) = ['/'] := rfl
    have e3 : ("/uv.png".toList : List Char) = '/' :: "uv.png".toList := rfl
    have e4 : ("ncar".toList : List Char) = ['n', 'c', 'a', 'r'] := rfl
    rw [ncar_raster_path]
    dsimp only
    rw [e1, e2, e3, e4]
    simp [List.append_assoc]
  have hnoY : ∀ c ∈ formatYear y, c ≠ '/' := by
    rw [hfy]
    exact all_digits_no_slash (padZeros_all_digits 4 y.toNat)
  have hnoMD : ∀ c ∈ pad2 m ++ pad2 d, c ≠ '/' := by
    intro c hc
    rcases List.mem_append.mp hc with hc | hc
    · exact all_digits_no_slash (padZeros_all_digits 2 m) c hc
    · exact all_digits_no_slash (padZeros_all_digits 2 d) c hc
  have hnoH : ∀ c ∈ natToChars h, c ≠ '/' :=
    all_digits_no_slash (natToChars_all_digits h)
  have hsplit : splitOnChar '/' (ncar_raster_path ⟨y, m, d⟩ h) =
      ["ncar".toList, formatYear y, pad2 m ++ pad2 d, natToChars h,
        "uv.png".toList] := by
    rw [hshape, splitOnChar_sep_append _ _ _ (by decide),
      splitOnChar_sep_append _ _ _ hnoY,
      splitOnChar_sep_append _ _ _ hnoMD,
      splitOnChar_sep_append _ _ _ hnoH,
      splitOnChar_no_sep _ _ (by decide)]
  have hYp : parseI32? (formatYear y) = some y := by
    rw [hfy, parseI32?_padZeros, Int.toNat_of_nonneg (by omega)]
  have hS1 : strSlice? (pad2 m ++ pad2 d) 0 2 = some (pad2 m) := by
    rw [strSlice?, if_pos (by simp [List.length_append, hlm, hld])]
    rw [List.drop_zero]
    congr 1
    rw [List.take_append_of_le_length (by omega)]
    exact List.take_of_length_le (by omega)
  have hS2 : strSlice? (pad2 m ++ pad2 d) 2 4 = some (pad2 d) := by
    rw [strSlice?, if_pos (by simp [List.length_append, hlm, hld])]
    congr 1
    have hdrop : (pad2 m ++ pad2 d).drop 2 = pad2 d := by
      have := List.drop_left (pad2 m) (pad2 d)
      rwa [hlm] at this
    rw [hdrop]
    exact List.take_of_length_le (by omega)
  have hMp : parseU32? (pad2 m) = some m := parseU32?_padZeros 2 m
  have hDp : parseU32? (pad2 d) = some d := parseU32?_padZeros 2 d
  have hHp : parseU32? (natToChars h) = some h := parseU32?_natToChars h
  have hymd : from_ymd_opt y m d = some ⟨y, m, d⟩ := by
    rw [from_ymd_opt, if_pos ⟨hm1, hm2, hd1, hd2⟩]
  have hhms : and_hms_opt ⟨y, m, d⟩ h 0 0 = some ⟨⟨y, m, d⟩, h, 0, 0⟩ := by
    rw [and_hms_opt, if_pos ⟨hh, by omega, by omega⟩]
  unfold parse_ncar_png_path
  rw [hsplit]
  dsimp only
  rw [if_neg (fun hne => hne rfl)]
  rw [hYp]
  dsimp only
  rw [hS1]
  dsimp only
  rw [hMp]
  dsimp only
  rw [hS2]
  dsimp only
  rw [hDp]
  dsimp only
  rw [hHp]
  dsimp only
  rw [hymd]
  dsimp only
  rw [hhms]
  dsimp only
  rw [ncar_grib_path]
  dsimp only
  rw [hiy, hfy2]
theorem C8_path_roundtrip_witness :
    (1000 ≤ (2020 : Int) ∧ (2020 : Int) ≤ 9999 ∧ 1 ≤ (11 : Nat) ∧
      (11 : Nat) ≤ 12 ∧ 1 ≤ (15 : Nat) ∧
      (15 : Nat) ≤ daysInMonth 2020 11 ∧ (12 : Nat) ≤ 23) ∧
    parse_ncar_png_path (ncar_raster_path ⟨2020, 11, 15⟩ 12) =
      some (some
        { time := ⟨⟨2020, 11, 15⟩, 12, 0, 0⟩
          grib_path := ncar_grib_path ⟨2020, 11, 15⟩ 12
          png_path := ncar_raster_path ⟨2020, 11, 15⟩ 12
          source := "ncar".toList }) :=
  ⟨⟨by norm_num, by norm_num, by norm_num, by norm_num, by norm_num,
    by decide, by norm_num⟩,
    C8_path_roundtrip 2020 11 15 12 (by norm_num) (by norm_num)
      (by norm_num) (by norm_num) (by norm_num) (by decide) (by norm_num)⟩
/-! ## Multiplayer race runtime — src/server/src/multiplayer.rs

Positions, headings and distances are `ℚ` (the source uses f32/f64).
The ordering claims hold for any distance function, so the haversine
formula — transcendental over floats — enters only through an abstract
`dist` parameter with `haversine_distance`'s argument order
`(lat1, lng1, lat2, lng2)`.  `HashMap<String, Player>` is an
association list whose insert replaces an existing key in place and
appends a fresh one; the `tx` channel handle and the
`last_sample_instant` wall-clock anchor are not representable and are
omitted, as are the fields of `Course` that the embedded operations
never read (name, description, polar, start, waypoints). -/

structure LngLat where
  lng : ℚ
  lat : ℚ
deriving DecidableEq

structure Gate where
  center : LngLat
  orientation : ℚ
  length_nm : ℚ
deriving DecidableEq

structure PathPoint where
  race_time : Int
  lng : ℚ
  lat : ℚ
  heading : ℚ
deriving DecidableEq

structure Course where
  key : List Char
  start_time : Int
  finish_line : Gate
  gates : List Gate
  time_factor : Nat
  max_days : Nat
deriving DecidableEq

structure Player where
  id : List Char
  name : List Char
  position : Option (ℚ × ℚ)  -- (lng, lat)
  heading : ℚ
  next_gate_index : Nat
  finish_time : Option Int
  path_history : List PathPoint
deriving DecidableEq

structure Race where
  course : Course
  creator_id : List Char
  players : List (List Char × Player)
  max_players : Nat
  race_start_time : Option Int
  race_ended : Bool
  last_activity : Int
deriving DecidableEq

/-- `Race::new` (`wind_raster_sources`, only echoed to clients, omitted;
`Utc::now()` passed in as `now`). -/
def Race.new (course : Course) (creator_id : List Char) (now : Int) : Race :=
  { course := course
    creator_id := creator_id
    players := []
    max_players := 10
    race_start_time := none
    race_ended := false
    last_activity := now }

def Race.race_started (r : Race) : Bool := r.race_start_time.isSome

/-- First-match lookup in an association list (`HashMap::get`). -/
def alLookup {α : Type} (k : List Char) :
    List (List Char × α) → Option α
  | [] => none
  | (k2, v) :: rest => if k2 = k then some v else alLookup k rest

/-- `HashMap::insert`: replace the entry for an existing key in place,
append a fresh one. -/
def alInsert {α : Type} (k : List Char) (v : α) :
    List (List Char × α) → List (List Char × α)
  | [] => [(k, v)]
  | (k2, v2) :: rest =>
    if k2 = k then (k, v) :: rest else (k2, v2) :: alInsert k v rest

/-- In-place mutation through `HashMap::get_mut`. -/
def alUpdate {α : Type} (k : List Char) (f : α → α) :
    List (List Char × α) → List (List Char × α)
  | [] => []
  | (k2, v) :: rest =>
    if k2 = k then (k2, f v) :: rest else (k2, v) :: alUpdate k f rest

/-- `Race::add_player`. -/
def Race.add_player (now : Int) (r : Race) (p : Player) :
    Except (List Char) Race :=
  if r.race_started then .error "Race has already started".toList
  else if r.players.length ≥ r.max_players then .error "Race is full".toList
  else .ok { r with players := alInsert p.id p r.players,
                    last_activity := now }

/-- A sequence of join attempts (`JoinRace`/`CreateRace` both run
`add_player`); a refused join leaves the race unchanged, as in the
source, where `add_player` returns `Err` before mutating. -/
def apply_joins : Race → List (Int × Player) → Race
  | r, [] => r
  | r, (now, p) :: rest =>
    match Race.add_player now r p with
    | .ok r2 => apply_joins r2 rest
    | .error _ => apply_joins r rest

theorem alInsert_length {α : Type} (k : List Char) (v : α) :
    ∀ l : List (List Char × α),
      (alInsert k v l).length ≤ l.length + 1 := by
  intro l
  induction l with
  | nil => simp [alInsert]
  | cons hd rest ih =>
    obtain ⟨k2, v2⟩ := hd
    rw [alInsert]
    split_ifs with h
    · simp
    · simpa using ih
theorem add_player_ok_bounds (r : Race) (p : Player) (now : Int) (r2 : Race)
    (h : Race.add_player now r p = .ok r2) :
    r2.players.length ≤ r.max_players ∧ r2.max_players = r.max_players := by
  rw [Race.add_player] at h
  -- `split_ifs` discharges the two error branches against `h` and
  -- substitutes `r2` in the remaining one
  split_ifs at h with h1 h2
  injection h with heq
  subst heq
  refine ⟨?_, rfl⟩
  show (alInsert p.id p r.players).length ≤ r.max_players
  have := alInsert_length p.id p r.players
  omega

theorem apply_joins_le :
    ∀ (joins : List (Int × Player)) (r : Race),
      r.players.length ≤ r.max_players →
      (apply_joins r joins).players.length ≤ r.max_players := by
  intro joins
  induction joins with
  | nil => intro r h; exact h
  | cons j rest ih =>
    intro r h
    obtain ⟨now, p⟩ := j
    rw [apply_joins]
    cases hadd : Race.add_player now r p with
    | ok r2 =>
      dsimp only
      obtain ⟨hlen, hmax⟩ := add_player_ok_bounds r p now r2 hadd
      have := ih r2 (by omega)
      omega
    | error e => dsimp only; exact ih r h

/-- C2: no sequence of join attempts brings a race above 10 players;
a join is refused (error, membership unchanged) when the race has
started or already holds `max_players = 10` players, and repeating a
join against a full lobby yields the same error each time (`add_player`
returns the error before mutating anything, so the race is unchanged). -/
theorem C2_race_capacity :
    (∀ (r : Race) (p : Player) (now : Int) (r2 : Race),
      Race.add_player now r p = .ok r2 →
      r2.players.length ≤ r.max_players) ∧
    (∀ (course : Course) (cid : List Char) (now0 : Int)
      (joins : List (Int × Player)),
      (apply_joins (Race.new course cid now0) joins).players.length ≤ 10) ∧
    (∀ (r : Race) (p : Player) (now : Int), r.race_started = true →
      Race.add_player now r p = .error "Race has already started".toList) ∧
    (∀ (r : Race) (p : Player) (now : Int), r.race_started = false →
      r.max_players ≤ r.players.length →
      Race.add_player now r p = .error "Race is full".toList) ∧
    (∀ (r : Race) (p q : Player) (now nowq : Int), r.race_started = false →
      r.max_players ≤ r.players.length →
      Race.add_player now r p = Race.add_player nowq r q) := by
  have herr2 : ∀ (r : Race) (p : Player) (now : Int),
      r.race_started = false → r.max_players ≤ r.players.length →
      Race.add_player now r p = .error "Race is full".toList := by
    intro r p now h1 h2
    rw [Race.add_player, if_neg (by simp [h1]), if_pos (by omega)]
  refine ⟨?_, ?_, ?_, herr2, ?_⟩
  · exact fun r p now r2 h => (add_player_ok_bounds r p now r2 h).1
  · intro course cid now0 joins
    have := apply_joins_le joins (Race.new course cid now0) (by simp [Race.new])
    simpa [Race.new] using this
  · intro r p now h1
    rw [Race.add_player, if_pos (by simp [h1])]
  · intro r p q now nowq h1 h2
    rw [herr2 r p now h1 h2, herr2 r q nowq h1 h2]

/-! ### Gate crossings (`multiplayer.rs`: `Race::record_gate_crossing`,
`RaceManager::record_gate_crossing`) -/

/-- `FinishedPlayer`, the data saved when a player crosses the finish
line. -/
structure FinishedPlayer where
  player_id : List Char
  player_name : List Char
  finish_time : Int
  path_history : List PathPoint
deriving DecidableEq

/-- `Race::record_gate_crossing`.  `self.players.get_mut(player_id)?`
is the lookup (`none` on a non-member); the mutation through the
`&mut` reference is `alUpdate`; `std::mem::take(&mut
player.path_history)` moves the history into the `FinishedPlayer` and
leaves `[]` behind.  The function checks only `gate_index ==
player.next_gate_index`; note that there is no check of the race
state. -/
def Race.record_gate_crossing (r : Race) (player_id : List Char)
    (gate_index : Nat) (course_time : Int) :
    Race × Option FinishedPlayer :=
  match alLookup player_id r.players with
  | none => (r, none)
  | some player =>
    if gate_index ≠ player.next_gate_index then (r, none)
    else if gate_index = r.course.gates.length then
      ({ r with players := (alUpdate player_id
            (fun _ => { player with next_gate_index := gate_index + 1,
                                    finish_time := some course_time,
                                    path_history := [] }) r.players) },
       some { player_id := player.id, player_name := player.name,
              finish_time := course_time,
              path_history := player.path_history })
    else
      ({ r with players := (alUpdate player_id
            (fun _ => { player with next_gate_index := gate_index + 1 })
            r.players) },
       none)

/-- The two maps of `RaceManager` read by `record_gate_crossing`
(`races: RwLock<HashMap<race_id, Race>>` and `player_races:
RwLock<HashMap<player_id, race_id>>`). -/
structure RaceManager where
  races : List (List Char × Race)
  player_races : List (List Char × List Char)
deriving DecidableEq

/-- `RaceManager::record_gate_crossing`: resolve the player's race id,
then the race, delegate to `Race::record_gate_crossing`, and return
the updated manager together with the `(course key, race start time,
finished player)` triple handed to `save_race_result` when the
crossing finished the race.  There is no race-state check here
either. -/
def RaceManager.record_gate_crossing (m : RaceManager)
    (player_id : List Char) (gate_index : Nat) (course_time : Int) :
    RaceManager × Option (List Char × Int × FinishedPlayer) :=
  match alLookup player_id m.player_races with
  | none => (m, none)
  | some race_id =>
    match alLookup race_id m.races with
    | none => (m, none)
    | some race =>
      let res := Race.record_gate_crossing race player_id gate_index
        course_time
      ({ m with races := alUpdate race_id (fun _ => res.1) m.races },
       res.2.map (fun f => (race.course.key, (race.course.start_time, f))))

theorem alLookup_alUpdate_self {α : Type} (k : List Char) (f : α → α) :
    ∀ (l : List (List Char × α)) (v : α), alLookup k l = some v →
      alLookup k (alUpdate k f l) = some (f v) := by
  intro l
  induction l with
  | nil => intro v h; cases h
  | cons hd rest ih =>
    intro v h
    obtain ⟨k2, v2⟩ := hd
    rw [alLookup] at h
    rw [alUpdate]
    split_ifs at h ⊢ with hk
    · rw [alLookup, if_pos hk]
      injection h with h
      rw [h]
    · rw [alLookup, if_neg hk]
      exact ih v h

theorem alLookup_alUpdate_ne {α : Type} (k q : List Char) (f : α → α)
    (hne : q ≠ k) :
    ∀ l : List (List Char × α),
      alLookup q (alUpdate k f l) = alLookup q l := by
  intro l
  induction l with
  | nil => rfl
  | cons hd rest ih =>
    obtain ⟨k2, v2⟩ := hd
    rw [alUpdate]
    split_ifs with hk
    · subst hk
      rw [alLookup, alLookup, if_neg (fun h => hne h.symm),
        if_neg (fun h => hne h.symm)]
    · rw [alLookup, alLookup]
      split_ifs with hq
      · rfl
      · exact ih

/-- C1 (amended): a gate crossing with a matching index is processed
in every race state — there is no check that the race is Running,
neither in `Race::record_gate_crossing` nor in
`RaceManager::record_gate_crossing`.  (1) match, not the finish line:
`next_gate_index` advances by one, nothing is returned, other players
untouched; (2) match on the finish line (`gate_index` = number of
intermediate gates): additionally `finish_time` is set to
`course_time`, the path history moves into the returned
`FinishedPlayer` and is cleared on the stored player; (3) non-member:
ignored; (4) index mismatch: ignored, race unchanged; (5) the manager
stores the race exactly as rewritten by `Race::record_gate_crossing`,
in any state. -/
theorem C1_gate_crossing :
    (∀ (r : Race) (pid : List Char) (p : Player) (gi : Nat) (ct : Int),
      alLookup pid r.players = some p →
      gi = p.next_gate_index →
      gi ≠ r.course.gates.length →
      (Race.record_gate_crossing r pid gi ct).2 = none ∧
      alLookup pid (Race.record_gate_crossing r pid gi ct).1.players =
        some { p with next_gate_index := gi + 1 } ∧
      (∀ q, q ≠ pid →
        alLookup q (Race.record_gate_crossing r pid gi ct).1.players =
          alLookup q r.players)) ∧
    (∀ (r : Race) (pid : List Char) (p : Player) (ct : Int),
      alLookup pid r.players = some p →
      p.next_gate_index = r.course.gates.length →
      (Race.record_gate_crossing r pid p.next_gate_index ct).2 =
        some { player_id := p.id, player_name := p.name,
               finish_time := ct, path_history := p.path_history } ∧
      alLookup pid
          (Race.record_gate_crossing r pid p.next_gate_index ct).1.players =
        some { p with next_gate_index := p.next_gate_index + 1,
                      finish_time := some ct, path_history := [] } ∧
      (∀ q, q ≠ pid →
        alLookup q
            (Race.record_gate_crossing r pid p.next_gate_index ct).1.players =
          alLookup q r.players)) ∧
    (∀ (r : Race) (pid : List Char) (gi : Nat) (ct : Int),
      alLookup pid r.players = none →
      Race.record_gate_crossing r pid gi ct = (r, none)) ∧
    (∀ (r : Race) (pid : List Char) (p : Player) (gi : Nat) (ct : Int),
      alLookup pid r.players = some p →
      gi ≠ p.next_gate_index →
      Race.record_gate_crossing r pid gi ct = (r, none)) ∧
    (∀ (m : RaceManager) (pid rid : List Char) (race : Race) (gi : Nat)
      (ct : Int),
      alLookup pid m.player_races = some rid →
      alLookup rid m.races = some race →
      (RaceManager.record_gate_crossing m pid gi ct).1.races =
        alUpdate rid (fun _ => (Race.record_gate_crossing race pid gi ct).1)
          m.races) := by
  refine ⟨?_, ?_, ?_, ?_, ?_⟩
  · intro r pid p gi ct hlook hgi hne
    have hrec : Race.record_gate_crossing r pid gi ct =
        ({ r with players := (alUpdate pid
            (fun _ => { p with next_gate_index := gi + 1 }) r.players) },
         none) := by
      rw [Race.record_gate_crossing, hlook]
      dsimp only
      rw [if_neg (not_not_intro hgi), if_neg hne]
    refine ⟨by rw [hrec], ?_, ?_⟩
    · rw [hrec]
      exact alLookup_alUpdate_self pid _ r.players p hlook
    · intro q hq
      rw [hrec]
      exact alLookup_alUpdate_ne pid q _ hq r.players
  · intro r pid p ct hlook hfin
    have hrec : Race.record_gate_crossing r pid p.next_gate_index ct =
        ({ r with players := (alUpdate pid
            (fun _ => { p with next_gate_index := p.next_gate_index + 1,
                               finish_time := some ct,
                               path_history := [] }) r.players) },
         some { player_id := p.id, player_name := p.name,
                finish_time := ct, path_history := p.path_history }) := by
      rw [Race.record_gate_crossing, hlook]
      dsimp only
      rw [if_neg (not_not_intro rfl), if_pos hfin]
    refine ⟨by rw [hrec], ?_, ?_⟩
    · rw [hrec]
      exact alLookup_alUpdate_self pid _ r.players p hlook
    · intro q hq
      rw [hrec]
      exact alLookup_alUpdate_ne pid q _ hq r.players
  · intro r pid gi ct hlook
    rw [Race.record_gate_crossing, hlook]
  · intro r pid p gi ct hlook hne
    rw [Race.record_gate_crossing, hlook]
    dsimp only
    rw [if_pos hne]
  · intro m pid rid race gi ct h1 h2
    rw [RaceManager.record_gate_crossing, h1]
    dsimp only
    rw [h2]

def sampleGate : Gate :=
  { center := { lng := 0, lat := 0 }, orientation := 0, length_nm := 1 }

def c1course : Course :=
  { key := "c".toList, start_time := 0, finish_line := sampleGate,
    gates := [sampleGate], time_factor := 1, max_days := 3 }

def c1p : Player :=
  { id := "p1".toList, name := "P".toList, position := some (0, 0),
    heading := 0, next_gate_index := 0, finish_time := none,
    path_history := [] }

/-- A race still in the Lobby: `race_start_time = none`, so
`race_started = false`. -/
def c1race : Race :=
  { course := c1course, creator_id := c1p.id,
    players := [(c1p.id, c1p)], max_players := 10,
    race_start_time := none, race_ended := false, last_activity := 0 }

def c1mgr : RaceManager :=
  { races := [("r1".toList, c1race)],
    player_races := [(c1p.id, "r1".toList)] }

/-- The claim as written is refuted: `c1race` is NOT Running (it is a
Lobby, `race_started = false`), yet the crossing is processed — the
player's `next_gate_index` moves from 0 to 1, at the `Race` level and
through `RaceManager::record_gate_crossing` alike, instead of being
silently ignored with the player unchanged. -/
theorem C1_counterexample :
    c1race.race_started = false ∧
    Option.map Player.next_gate_index (alLookup c1p.id c1race.players) =
      some 0 ∧
    Option.map Player.next_gate_index
        (alLookup c1p.id
          (Race.record_gate_crossing c1race c1p.id 0 42).1.players) =
      some 1 ∧
    Option.map
        (fun r2 => Option.map Player.next_gate_index
          (alLookup c1p.id r2.players))
        (alLookup "r1".toList
          (RaceManager.record_gate_crossing c1mgr c1p.id 0 42).1.races) =
      some (some 1) := by
  decide

/-- A player standing on the finish line of `c1course` (one
intermediate gate, so finish index 1), with some path history. -/
def c1pf : Player :=
  { c1p with next_gate_index := 1,
             path_history := [{ race_time := 3, lng := 1, lat := 2,
                                heading := 0 }] }

def c1racef : Race :=
  { c1race with players := [(c1p.id, c1pf)] }

theorem C1_gate_crossing_witness :
    (Race.record_gate_crossing c1race c1p.id 0 7).2 = none ∧
    (Race.record_gate_crossing c1racef c1p.id 1 99).2 =
      some { player_id := c1pf.id, player_name := c1pf.name,
             finish_time := 99, path_history := c1pf.path_history } ∧
    Race.record_gate_crossing c1race "z".toList 0 7 = (c1race, none) ∧
    Race.record_gate_crossing c1race c1p.id 5 7 = (c1race, none) ∧
    (RaceManager.record_gate_crossing c1mgr c1p.id 0 42).1.races =
      alUpdate "r1".toList
        (fun _ => (Race.record_gate_crossing c1race c1p.id 0 42).1)
        c1mgr.races := by
  obtain ⟨h1, h2, h3, h4, h5⟩ := C1_gate_crossing
  exact ⟨(h1 c1race c1p.id c1p 0 7 (by decide) (by decide) (by decide)).1,
         (h2 c1racef c1p.id c1pf 99 (by decide) (by decide)).1,
         h3 c1race "z".toList 0 7 (by decide),
         h4 c1race c1p.id c1p 5 7 (by decide) (by decide),
         h5 c1mgr c1p.id "r1".toList c1race 0 42 (by decide) (by decide)⟩

def c2course : Course :=
  { key := [], start_time := 0, finish_line := sampleGate, gates := [],
    time_factor := 1, max_days := 3 }

def c2player (c : Char) : Player :=
  { id := [c], name := [c], position := none, heading := 0,
    next_gate_index := 0, finish_time := none, path_history := [] }

/-- A lobby holding its full complement of 10 players. -/
def c2full : Race :=
  { course := c2course, creator_id := ['0'],
    players := (['0', '1', '2', '3', '4', '5', '6', '7', '8', '9']).map
      (fun c => ([c], c2player c)),
    max_players := 10, race_start_time := none, race_ended := false,
    last_activity := 0 }

/-- A race that has started (`race_start_time` set). -/
def c2started : Race :=
  { c2full with players := [], race_start_time := some 5 }

/-- The race obtained by adding player `a` to a fresh lobby at time 1. -/
def c2one : Race :=
  { course := c2course, creator_id := ['0'],
    players := [(['a'], c2player 'a')], max_players := 10,
    race_start_time := none, race_ended := false, last_activity := 1 }

theorem C2_race_capacity_witness :
    c2one.players.length ≤ (Race.new c2course ['0'] 0).max_players ∧
    (apply_joins (Race.new c2course ['0'] 0)
        [(1, c2player 'a'), (2, c2player 'b'),
         (3, c2player 'a')]).players.length ≤ 10 ∧
    Race.add_player 7 c2started (c2player 'a') =
      .error "Race has already started".toList ∧
    Race.add_player 7 c2full (c2player 'a') =
      .error "Race is full".toList ∧
    Race.add_player 7 c2full (c2player 'a') =
      Race.add_player 8 c2full (c2player 'b') := by
  obtain ⟨h1, h2, h3, h4, h5⟩ := C2_race_capacity
  exact ⟨h1 (Race.new c2course ['0'] 0) (c2player 'a') 1 c2one (by rfl),
         h2 c2course ['0'] 0
           [(1, c2player 'a'), (2, c2player 'b'), (3, c2player 'a')],
         h3 c2started (c2player 'a') 7 (by decide),
         h4 c2full (c2player 'a') 7 (by decide) (by decide),
         h5 c2full (c2player 'a') (c2player 'b') 7 8 (by decide)
           (by decide)⟩

/-! ### Leaderboard (`multiplayer.rs`: `Race::compute_leaderboard`).
The haversine distance (`haversine_distance`, Earth radius 3440.065
nautical miles) is built from `sin`, `cos`, `sqrt` and `asin` and has
no exact rational value, so it enters the model as an oracle
`dist lat1 lng1 lat2 lng2`; every statement below holds for an
arbitrary oracle, in particular for the haversine distance. -/

structure LeaderboardEntry where
  player_id : List Char
  player_name : List Char
  next_gate_index : Nat
  distance_to_next_gate : ℚ
  finish_time : Option Int
deriving DecidableEq

/-- The three-way comparison of a linear order: `i64::cmp`,
`usize::cmp`, and `f64::partial_cmp(..).unwrap_or(Equal)` (on the
rationals of the model `partial_cmp` always succeeds, so the
`unwrap_or` arm never fires). -/
def cmp3 {α : Type} [LinearOrder α] (a b : α) : Ordering :=
  if a < b then .lt else if b < a then .gt else .eq

/-- The comparator closure passed to `sort_by` in
`Race::compute_leaderboard`. -/
def cmpEntries (a b : LeaderboardEntry) : Ordering :=
  match a.finish_time, b.finish_time with
  | some ta, some tb => cmp3 ta tb
  | some _, none => .lt
  | none, some _ => .gt
  | none, none =>
    match cmp3 b.next_gate_index a.next_gate_index with
    | .eq => cmp3 a.distance_to_next_gate b.distance_to_next_gate
    | ord => ord

/-- `a` may stand before `b` in comparator order: `sort_by` produces a
sequence on which the comparator never answers `Greater` for an
adjacent (hence any) ordered pair. -/
def entryLE (a b : LeaderboardEntry) : Prop :=
  cmpEntries a b ≠ Ordering.gt

instance : DecidableRel entryLE := fun a b =>
  inferInstanceAs (Decidable (cmpEntries a b ≠ Ordering.gt))

/-- The center the `distance` computation aims at: the next
intermediate gate while any remain (`player.next_gate_index <
num_gates`), the finish line after. -/
def nextCenter (course : Course) (gi : Nat) : LngLat :=
  if h : gi < course.gates.length then (course.gates.get ⟨gi, h⟩).center
  else course.finish_line.center

/-- The `filter_map` body of `compute_leaderboard`:
`player.position?` drops players that never reported a position; a
finished player reports distance `0.0`. -/
def mkEntry (dist : ℚ → ℚ → ℚ → ℚ → ℚ) (course : Course)
    (player : Player) : Option LeaderboardEntry :=
  match player.position with
  | none => none
  | some (lng, lat) =>
    some { player_id := player.id,
           player_name := player.name,
           next_gate_index := player.next_gate_index,
           distance_to_next_gate :=
             (if player.finish_time.isSome then 0
              else dist lat lng (nextCenter course player.next_gate_index).lat
                (nextCenter course player.next_gate_index).lng),
           finish_time := player.finish_time }

/-- `Race::compute_leaderboard`.  Rust's stable `sort_by` is modelled
by `List.insertionSort` (also stable) over `entryLE`. -/
def Race.compute_leaderboard (dist : ℚ → ℚ → ℚ → ℚ → ℚ) (r : Race) :
    List LeaderboardEntry :=
  List.insertionSort entryLE
    ((r.players.map Prod.snd).filterMap (mkEntry dist r.course))

/-- The ordering relation in the words of the claim: finished players
precede racing players; finished players by ascending finish time;
racing players by descending next-gate index, ties broken by ascending
distance to the next gate. -/
def leaderboardOrder (a b : LeaderboardEntry) : Prop :=
  match a.finish_time, b.finish_time with
  | some ta, some tb => ta ≤ tb
  | some _, none => True
  | none, some _ => False
  | none, none =>
    b.next_gate_index < a.next_gate_index ∨
    (a.next_gate_index = b.next_gate_index ∧
     a.distance_to_next_gate ≤ b.distance_to_next_gate)

theorem cmp3_of_lt {α : Type} [LinearOrder α] {a b : α} (h : a < b) :
    cmp3 a b = Ordering.lt := by
  rw [cmp3, if_pos h]

theorem cmp3_of_gt {α : Type} [LinearOrder α] {a b : α} (h : b < a) :
    cmp3 a b = Ordering.gt := by
  rw [cmp3, if_neg (not_lt.mpr (le_of_lt h)), if_pos h]

theorem cmp3_of_eq {α : Type} [LinearOrder α] {a : α} :
    cmp3 a a = Ordering.eq := by
  rw [cmp3, if_neg (lt_irrefl a), if_neg (lt_irrefl a)]

theorem cmp3_ne_gt_iff {α : Type} [LinearOrder α] (a b : α) :
    cmp3 a b ≠ Ordering.gt ↔ a ≤ b := by
  rcases lt_trichotomy a b with h | h | h
  · rw [cmp3_of_lt h]
    exact iff_of_true (by decide) (le_of_lt h)
  · subst h
    rw [cmp3_of_eq]
    exact iff_of_true (by decide) (le_refl a)
  · rw [cmp3_of_gt h]
    exact iff_of_false (by simp) (not_le.mpr h)

/-- The comparator's "not Greater" relation is exactly the ordering of
the claim. -/
theorem entryLE_iff (a b : LeaderboardEntry) :
    entryLE a b ↔ leaderboardOrder a b := by
  obtain ⟨_, _, ag, ad, aft⟩ := a
  obtain ⟨_, _, bg, bd, bft⟩ := b
  rcases aft with _ | ta <;> rcases bft with _ | tb <;>
    simp only [entryLE, cmpEntries, leaderboardOrder]
  · rcases Nat.lt_trichotomy bg ag with h | h | h
    · rw [cmp3_of_lt h]
      show Ordering.lt ≠ Ordering.gt ↔ _
      exact iff_of_true (by decide) (Or.inl h)
    · subst h
      rw [cmp3_of_eq]
      show cmp3 ad bd ≠ Ordering.gt ↔ _
      rw [cmp3_ne_gt_iff]
      constructor
      · intro hd
        exact Or.inr ⟨rfl, hd⟩
      · rintro (hlt | ⟨_, hd⟩)
        · exact absurd hlt (lt_irrefl _)
        · exact hd
    · rw [cmp3_of_gt h]
      exact iff_of_false (by simp) (by rintro (hlt | ⟨he, _⟩) <;> omega)
  · exact iff_of_false (by simp) not_false
  · exact iff_of_true (by decide) trivial
  · exact cmp3_ne_gt_iff ta tb

instance : IsTotal LeaderboardEntry entryLE :=
  ⟨fun a b => by
    rw [entryLE_iff, entryLE_iff]
    obtain ⟨_, _, ag, ad, aft⟩ := a
    obtain ⟨_, _, bg, bd, bft⟩ := b
    rcases aft with _ | ta <;> rcases bft with _ | tb <;>
      simp only [leaderboardOrder]
    · rcases Nat.lt_trichotomy ag bg with h | h | h
      · exact Or.inr (Or.inl h)
      · rcases le_total ad bd with hd | hd
        · exact Or.inl (Or.inr ⟨h, hd⟩)
        · exact Or.inr (Or.inr ⟨h.symm, hd⟩)
      · exact Or.inl (Or.inl h)
    · exact Or.inr trivial
    · exact Or.inl trivial
    · exact le_total ta tb⟩

instance : IsTrans LeaderboardEntry entryLE :=
  ⟨fun a b c hab hbc => by
    rw [entryLE_iff] at hab hbc ⊢
    obtain ⟨_, _, ag, ad, aft⟩ := a
    obtain ⟨_, _, bg, bd, bft⟩ := b
    obtain ⟨_, _, cg, cd, cft⟩ := c
    rcases aft with _ | ta <;> rcases bft with _ | tb <;>
        rcases cft with _ | tc <;>
      simp only [leaderboardOrder] at hab hbc ⊢
    · rcases hab with h1 | ⟨h1e, h1d⟩ <;> rcases hbc with h2 | ⟨h2e, h2d⟩
      · exact Or.inl (by omega)
      · exact Or.inl (by omega)
      · exact Or.inl (by omega)
      · exact Or.inr ⟨by omega, by linarith⟩
    · exact le_trans hab hbc⟩

/-- C3: every computed leaderboard is ordered by the claimed total
order — finished players (ascending finish time) before racing players
(descending next-gate index, ties by ascending distance to the next
gate or finish-line center) — and is a permutation of the entries the
`filter_map` builds from the race members; this holds for an arbitrary
distance oracle `dist`, in particular for the haversine distance with
Earth radius 3440.065 nautical miles that the code uses. -/
theorem C3_leaderboard_order (dist : ℚ → ℚ → ℚ → ℚ → ℚ) (r : Race) :
    (Race.compute_leaderboard dist r).Pairwise leaderboardOrder ∧
    (Race.compute_leaderboard dist r).Perm
      ((r.players.map Prod.snd).filterMap (mkEntry dist r.course)) := by
  constructor
  · have hs := List.sorted_insertionSort entryLE
      ((r.players.map Prod.snd).filterMap (mkEntry dist r.course))
    rw [Race.compute_leaderboard]
    exact List.Pairwise.imp (fun h => (entryLE_iff _ _).mp h) hs
  · rw [Race.compute_leaderboard]
    exact List.perm_insertionSort entryLE _

theorem mkEntry_isSome (dist : ℚ → ℚ → ℚ → ℚ → ℚ) (c : Course)
    (p : Player) : (mkEntry dist c p).isSome = p.position.isSome := by
  rcases hp : p.position with _ | ⟨lng, lat⟩ <;> rw [mkEntry, hp] <;> rfl

theorem mkEntry_some (dist : ℚ → ℚ → ℚ → ℚ → ℚ) (c : Course) (p : Player)
    (e : LeaderboardEntry) (h : mkEntry dist c p = some e) :
    p.position.isSome = true ∧ e.player_id = p.id ∧
    e.finish_time = p.finish_time ∧
    (p.finish_time.isSome = true → e.distance_to_next_gate = 0) := by
  rcases hp : p.position with _ | ⟨lng, lat⟩ <;> rw [mkEntry, hp] at h
  · cases h
  · injection h with he
    subst he
    refine ⟨rfl, rfl, rfl, ?_⟩
    intro hft
    show (if p.finish_time.isSome then (0 : ℚ) else _) = 0
    rw [if_pos hft]

theorem length_filterMap_isSome {α β : Type} (f : α → Option β) :
    ∀ l : List α, (l.filterMap f).length =
      (l.filter (fun a => (f a).isSome)).length := by
  intro l
  induction l with
  | nil => rfl
  | cons a t ih =>
    cases h : f a <;>
      simp [List.filterMap_cons, List.filter_cons, h, ih]

/-- C10: a member whose `position` is `None` is dropped by the
`filter_map` (`player.position?`) and so never appears on a
leaderboard, finished or not — the leaderboard has exactly one entry
per member with a position; every entry stems from such a member via
`mkEntry`, and an entry whose player has finished carries
`distance_to_next_gate = 0` regardless of the player's actual
position. -/
theorem C10_leaderboard_membership (dist : ℚ → ℚ → ℚ → ℚ → ℚ)
    (r : Race) :
    (Race.compute_leaderboard dist r).length =
      ((r.players.map Prod.snd).filter
        (fun p => p.position.isSome)).length ∧
    (∀ e ∈ Race.compute_leaderboard dist r,
      ∃ p, p ∈ r.players.map Prod.snd ∧ p.position.isSome = true ∧
        mkEntry dist r.course p = some e ∧ e.player_id = p.id ∧
        e.finish_time = p.finish_time ∧
        (e.finish_time.isSome = true → e.distance_to_next_gate = 0)) := by
  constructor
  · rw [Race.compute_leaderboard,
      (List.perm_insertionSort entryLE _).length_eq,
      length_filterMap_isSome]
    rw [List.filter_congr (fun p _ => mkEntry_isSome dist r.course p)]
  · intro e he
    rw [Race.compute_leaderboard] at he
    have he2 : e ∈ (r.players.map Prod.snd).filterMap
        (mkEntry dist r.course) :=
      (List.perm_insertionSort entryLE _).mem_iff.mp he
    obtain ⟨p, hp, hme⟩ := List.mem_filterMap.mp he2
    obtain ⟨hpos, hid, hft, hdist⟩ := mkEntry_some dist r.course p e hme
    refine ⟨p, hp, hpos, hme, hid, hft, ?_⟩
    intro hf
    rw [hft] at hf
    exact hdist hf

/-- A concrete computable stand-in for the distance oracle. -/
def flatDist (lat1 lng1 lat2 lng2 : ℚ) : ℚ :=
  |lat2 - lat1| + |lng2 - lng1|

def mkPlayer (c : Char) (pos : Option (ℚ × ℚ)) (g : Nat)
    (ft : Option Int) : Player :=
  { id := [c], name := [c], position := pos, heading := 0,
    next_gate_index := g, finish_time := ft, path_history := [] }

def c3course : Course :=
  { key := [], start_time := 0, finish_line := sampleGate,
    gates := [{ center := { lng := 10, lat := 0 }, orientation := 0,
                length_nm := 1 }],
    time_factor := 1, max_days := 3 }

/-- A running race with two finished players, two racing players, and
one member (finished, even) who never reported a position. -/
def c3race : Race :=
  { course := c3course, creator_id := ['a'],
    players :=
      [(['a'], mkPlayer 'a' (some (0, 0)) 0 none),
       (['b'], mkPlayer 'b' (some (1, 0)) 2 (some 100)),
       (['c'], mkPlayer 'c' none 2 (some 40)),
       (['d'], mkPlayer 'd' (some (2, 0)) 2 (some 50)),
       (['e'], mkPlayer 'e' (some (5, 5)) 1 none)],
    max_players := 10, race_start_time := some 0, race_ended := false,
    last_activity := 0 }

theorem C3_leaderboard_order_witness :
    (Race.compute_leaderboard flatDist c3race).Pairwise
      leaderboardOrder :=
  (C3_leaderboard_order flatDist c3race).1

theorem C10_leaderboard_membership_witness :
    (Race.compute_leaderboard flatDist c3race).length = 4 :=
  (C10_leaderboard_membership flatDist c3race).1.trans (by decide)
